import Mathlib

/-!
Verification of the nbdime generic structural differ.

This development embeds the recursive structural differ of
`nbdime/diffing/generic.py` (functions `is_atomic`, `diff`, `diff_lists`,
`diff_dicts`, `diff_sequence_multilevel`), the strategy dispatch of
`nbdime/diffing/sequences.py` (`diff_sequence`, `diff_sequence_algorithm`,
`diff_strings`), and the notebook entry points of
`nbdime/diffing/notebooks.py` (`diff_single_cells`, `diff_notebooks`,
`old_diff_cells`).

Values are JSON-like trees: strings, atomic scalars (numbers, booleans,
null — everything `is_atomic` accepts), lists, and dicts (modelled as
association lists).  Python exceptions are modelled with `Except`;
recursion is bounded by an explicit fuel parameter, with exhaustion
reported as a distinct error so that every theorem conditioned on a
non-error result is about genuinely completed runs.

The collaborator modules `diff_format.py` (diff builders and validator),
`snakes.py` (multilevel alignment) and the three `seq_*.py` alignment
algorithms are part of the repository but their sources are not
available here; where needed they are modelled from the specification,
and each such definition carries a doc comment saying so.
-/

namespace Nbdime

/-- A JSON-like document value: text, an atomic scalar (number, boolean,
null — anything `is_atomic` accepts), an ordered sequence, or a mapping
represented as an association list of string keys to values. -/
inductive JVal where
  | str (s : String)
  | atom (n : Int)
  | list (xs : List JVal)
  | obj (kvs : List (String × JVal))

mutual

/-- Decidable equality for `JVal` (structural; on the well-formed values
used in the theorems below this agrees with Python `==`). -/
def decEqJ : (a b : JVal) → Decidable (a = b)
  | .str a, .str b =>
    match String.decEq a b with
    | .isTrue h => .isTrue (by rw [h])
    | .isFalse h => .isFalse (fun hh => h (JVal.str.inj hh))
  | .str _, .atom _ => .isFalse (fun hh => JVal.noConfusion hh)
  | .str _, .list _ => .isFalse (fun hh => JVal.noConfusion hh)
  | .str _, .obj _ => .isFalse (fun hh => JVal.noConfusion hh)
  | .atom _, .str _ => .isFalse (fun hh => JVal.noConfusion hh)
  | .atom a, .atom b =>
    match decEq a b with
    | .isTrue h => .isTrue (by rw [h])
    | .isFalse h => .isFalse (fun hh => h (JVal.atom.inj hh))
  | .atom _, .list _ => .isFalse (fun hh => JVal.noConfusion hh)
  | .atom _, .obj _ => .isFalse (fun hh => JVal.noConfusion hh)
  | .list _, .str _ => .isFalse (fun hh => JVal.noConfusion hh)
  | .list _, .atom _ => .isFalse (fun hh => JVal.noConfusion hh)
  | .list xs, .list ys =>
    match decEqJL xs ys with
    | .isTrue h => .isTrue (by rw [h])
    | .isFalse h => .isFalse (fun hh => h (JVal.list.inj hh))
  | .list _, .obj _ => .isFalse (fun hh => JVal.noConfusion hh)
  | .obj _, .str _ => .isFalse (fun hh => JVal.noConfusion hh)
  | .obj _, .atom _ => .isFalse (fun hh => JVal.noConfusion hh)
  | .obj _, .list _ => .isFalse (fun hh => JVal.noConfusion hh)
  | .obj xs, .obj ys =>
    match decEqJO xs ys with
    | .isTrue h => .isTrue (by rw [h])
    | .isFalse h => .isFalse (fun hh => h (JVal.obj.inj hh))

/-- Decidable equality for lists of values. -/
def decEqJL : (xs ys : List JVal) → Decidable (xs = ys)
  | [], [] => .isTrue rfl
  | [], _ :: _ => .isFalse (fun hh => List.noConfusion hh)
  | _ :: _, [] => .isFalse (fun hh => List.noConfusion hh)
  | x :: xs, y :: ys =>
    match decEqJ x y, decEqJL xs ys with
    | .isTrue h1, .isTrue h2 => .isTrue (by rw [h1, h2])
    | .isFalse h1, _ => .isFalse (fun hh => h1 (List.cons.inj hh).1)
    | _, .isFalse h2 => .isFalse (fun hh => h2 (List.cons.inj hh).2)

/-- Decidable equality for association lists of values. -/
def decEqJO : (xs ys : List (String × JVal)) → Decidable (xs = ys)
  | [], [] => .isTrue rfl
  | [], _ :: _ => .isFalse (fun hh => List.noConfusion hh)
  | _ :: _, [] => .isFalse (fun hh => List.noConfusion hh)
  | (k, x) :: xs, (l, y) :: ys =>
    match String.decEq k l, decEqJ x y, decEqJO xs ys with
    | .isTrue h0, .isTrue h1, .isTrue h2 => .isTrue (by rw [h0, h1, h2])
    | .isFalse h0, _, _ =>
      .isFalse (fun hh => h0 (congrArg Prod.fst (List.cons.inj hh).1))
    | _, .isFalse h1, _ =>
      .isFalse (fun hh => h1 (congrArg Prod.snd (List.cons.inj hh).1))
    | _, _, .isFalse h2 => .isFalse (fun hh => h2 (List.cons.inj hh).2)

end

instance : DecidableEq JVal := decEqJ

/-- `is_atomic` from `generic.py`: true for values that diff treats as a
single atomic value, i.e. everything that is not a string, list or dict. -/
def is_atomic : JVal → Bool
  | .atom _ => true
  | _ => false

/-- Python `type(a) == type(b)`: the two values have the same runtime kind. -/
def typeSame : JVal → JVal → Bool
  | .str _, .str _ => true
  | .atom _, .atom _ => true
  | .list _, .list _ => true
  | .obj _, .obj _ => true
  | _, _ => false

/-- The pairs accepted by the dispatch in `diff` (`generic.py` lines
43–49): both lists, both dicts, or both strings. -/
def kindMatch : JVal → JVal → Bool
  | .list _, .list _ => true
  | .obj _, .obj _ => true
  | .str _, .str _ => true
  | _, _ => false

/-! ### String ordering

Python compares strings lexicographically by code point; the model uses
an executable comparison on the character lists. -/

/-- Strict lexicographic order on character lists by code point. -/
def charsLt : List Char → List Char → Bool
  | [], [] => false
  | [], _ :: _ => true
  | _ :: _, [] => false
  | c :: cs, d :: ds =>
    if c.toNat < d.toNat then true
    else if d.toNat < c.toNat then false
    else charsLt cs ds

/-- Python `a < b` on strings. -/
def strLtB (a b : String) : Bool := charsLt a.data b.data

/-- Python `a <= b` on strings. -/
def strLeB (a b : String) : Bool := !(strLtB b a)

theorem charsLt_irrefl : ∀ cs, charsLt cs cs = false := by
  intro cs
  induction cs with
  | nil => rfl
  | cons c cs ih => simp [charsLt, ih]

theorem charsLt_trans : ∀ a b c, charsLt a b = true → charsLt b c = true →
    charsLt a c = true := by
  intro a
  induction a with
  | nil =>
    intro b c hab hbc
    match b, c with
    | _ :: _, _ :: _ => rfl
    | _ :: _, [] => simp [charsLt] at hbc
    | [], _ => simp [charsLt] at hab
  | cons x xs ih =>
    intro b c hab hbc
    match b, c with
    | [], _ => simp [charsLt] at hab
    | _ :: _, [] => simp [charsLt] at hbc
    | y :: ys, z :: zs =>
      simp only [charsLt] at hab hbc ⊢
      by_cases h1 : x.toNat < y.toNat
      · by_cases h3 : y.toNat < z.toNat
        · rw [if_pos (show x.toNat < z.toNat by omega)]
        · by_cases h4 : z.toNat < y.toNat
          · rw [if_neg h3, if_pos h4] at hbc
            exact absurd hbc (by simp)
          · rw [if_pos (show x.toNat < z.toNat by omega)]
      · by_cases h2 : y.toNat < x.toNat
        · rw [if_neg h1, if_pos h2] at hab
          exact absurd hab (by simp)
        · rw [if_neg h1, if_neg h2] at hab
          by_cases h3 : y.toNat < z.toNat
          · rw [if_pos (show x.toNat < z.toNat by omega)]
          · by_cases h4 : z.toNat < y.toNat
            · rw [if_neg h3, if_pos h4] at hbc
              exact absurd hbc (by simp)
            · rw [if_neg h3, if_neg h4] at hbc
              rw [if_neg (show ¬ x.toNat < z.toNat by omega),
                if_neg (show ¬ z.toNat < x.toNat by omega)]
              exact ih ys zs hab hbc

theorem charsLt_connex : ∀ a b, charsLt a b = false → charsLt b a = false →
    a = b := by
  intro a
  induction a with
  | nil =>
    intro b hab _
    match b with
    | [] => rfl
    | _ :: _ => simp [charsLt] at hab
  | cons x xs ih =>
    intro b hab hba
    match b with
    | [] => simp [charsLt] at hba
    | y :: ys =>
      simp only [charsLt] at hab hba
      by_cases h1 : x.toNat < y.toNat
      · simp [h1] at hab
      · by_cases h2 : y.toNat < x.toNat
        · simp [h1, h2] at hba
        · simp [h1, h2] at hab hba
          have hxy : x.toNat = y.toNat := by omega
          have hx : x = y := by
            have := congrArg Char.ofNat hxy
            rwa [Char.ofNat_toNat, Char.ofNat_toNat] at this
          rw [hx, ih ys hab hba]

theorem charsLt_asymm {a b : List Char} (h : charsLt a b = true) :
    charsLt b a = false := by
  by_contra hh
  rw [Bool.not_eq_false] at hh
  have := charsLt_trans a b a h hh
  rw [charsLt_irrefl] at this
  exact Bool.false_ne_true this

/-- `strLeB` as a relation, for sorting. -/
def strLe (a b : String) : Prop := strLeB a b = true

instance : DecidableRel strLe := fun a b => decEq (strLeB a b) true

instance : IsTotal String strLe := by
  constructor
  intro a b
  unfold strLe strLeB
  by_cases h : strLtB b a = true
  · right
    unfold strLtB at h ⊢
    simp [charsLt_asymm h]
  · left
    simp [h]

instance : IsTrans String strLe := by
  constructor
  intro a b c hab hbc
  unfold strLe strLeB strLtB at hab hbc ⊢
  rw [Bool.not_eq_true'] at hab hbc ⊢
  by_contra hh
  rw [Bool.not_eq_false] at hh
  by_cases h2 : charsLt b.data c.data = true
  · have := charsLt_trans _ _ _ h2 hh
    rw [hab] at this
    exact Bool.false_ne_true this
  · have hb : b.data = c.data := charsLt_connex _ _ (by
      rw [Bool.not_eq_true] at h2
      exact h2) hbc
    rw [← hb, hab] at hh
    exact Bool.false_ne_true hh

/-- Strict string order for well-formed dict keys. -/
def strLt (a b : String) : Prop := strLtB a b = true

/-- Well-formed values: dict keys are strictly sorted (in particular
duplicate-free), recursively.  On this domain the structural equality of
the model coincides with Python `==`. -/
inductive WfJ : JVal → Prop where
  | str (s : String) : WfJ (.str s)
  | atom (n : Int) : WfJ (.atom n)
  | list {xs : List JVal} : (∀ x ∈ xs, WfJ x) → WfJ (.list xs)
  | obj {kvs : List (String × JVal)} :
      List.Pairwise strLt (kvs.map Prod.fst) →
      (∀ kv ∈ kvs, WfJ kv.2) → WfJ (.obj kvs)

/-- Keys of diff entries: strings for mapping diffs, source indices for
sequence diffs. -/
inductive DKey where
  | s (k : String)
  | i (n : Nat)
deriving DecidableEq

/-- A diff entry (spec §3): `Add`, `Remove`, `Replace`, or a recursive
`Patch` carrying a nested diff. -/
inductive Entry where
  | add (k : DKey) (v : JVal)
  | remove (k : DKey)
  | replace (k : DKey) (v : JVal)
  | patch (k : DKey) (d : List Entry)

mutual

/-- Decidable equality for diff entries. -/
def decEqE : (a b : Entry) → Decidable (a = b)
  | .add k v, .add l w =>
    match decEq k l, decEqJ v w with
    | .isTrue h0, .isTrue h1 => .isTrue (by rw [h0, h1])
    | .isFalse h0, _ => .isFalse (fun hh => h0 (Entry.add.inj hh).1)
    | _, .isFalse h1 => .isFalse (fun hh => h1 (Entry.add.inj hh).2)
  | .add _ _, .remove _ => .isFalse (fun hh => Entry.noConfusion hh)
  | .add _ _, .replace _ _ => .isFalse (fun hh => Entry.noConfusion hh)
  | .add _ _, .patch _ _ => .isFalse (fun hh => Entry.noConfusion hh)
  | .remove _, .add _ _ => .isFalse (fun hh => Entry.noConfusion hh)
  | .remove k, .remove l =>
    match decEq k l with
    | .isTrue h0 => .isTrue (by rw [h0])
    | .isFalse h0 => .isFalse (fun hh => h0 (Entry.remove.inj hh))
  | .remove _, .replace _ _ => .isFalse (fun hh => Entry.noConfusion hh)
  | .remove _, .patch _ _ => .isFalse (fun hh => Entry.noConfusion hh)
  | .replace _ _, .add _ _ => .isFalse (fun hh => Entry.noConfusion hh)
  | .replace _ _, .remove _ => .isFalse (fun hh => Entry.noConfusion hh)
  | .replace k v, .replace l w =>
    match decEq k l, decEqJ v w with
    | .isTrue h0, .isTrue h1 => .isTrue (by rw [h0, h1])
    | .isFalse h0, _ => .isFalse (fun hh => h0 (Entry.replace.inj hh).1)
    | _, .isFalse h1 => .isFalse (fun hh => h1 (Entry.replace.inj hh).2)
  | .replace _ _, .patch _ _ => .isFalse (fun hh => Entry.noConfusion hh)
  | .patch _ _, .add _ _ => .isFalse (fun hh => Entry.noConfusion hh)
  | .patch _ _, .remove _ => .isFalse (fun hh => Entry.noConfusion hh)
  | .patch _ _, .replace _ _ => .isFalse (fun hh => Entry.noConfusion hh)
  | .patch k d, .patch l e =>
    match decEq k l, decEqEL d e with
    | .isTrue h0, .isTrue h1 => .isTrue (by rw [h0, h1])
    | .isFalse h0, _ => .isFalse (fun hh => h0 (Entry.patch.inj hh).1)
    | _, .isFalse h1 => .isFalse (fun hh => h1 (Entry.patch.inj hh).2)

/-- Decidable equality for entry lists. -/
def decEqEL : (xs ys : List Entry) → Decidable (xs = ys)
  | [], [] => .isTrue rfl
  | [], _ :: _ => .isFalse (fun hh => List.noConfusion hh)
  | _ :: _, [] => .isFalse (fun hh => List.noConfusion hh)
  | x :: xs, y :: ys =>
    match decEqE x y, decEqEL xs ys with
    | .isTrue h1, .isTrue h2 => .isTrue (by rw [h1, h2])
    | .isFalse h1, _ => .isFalse (fun hh => h1 (List.cons.inj hh).1)
    | _, .isFalse h2 => .isFalse (fun hh => h2 (List.cons.inj hh).2)

end

instance : DecidableEq Entry := decEqE

/-- The key of a diff entry. -/
def Entry.key : Entry → DKey
  | .add k _ => k
  | .remove k => k
  | .replace k _ => k
  | .patch k _ => k

/-- Errors of the engine.  `unsupportedValueKind`, `predicateConflict`
and `unknownAlgorithm` model the `RuntimeError`s raised in `generic.py`
and `sequences.py`; `assertFail`, `indexError`, `keyError`, `typeError`
and `nameError` model the corresponding Python exceptions;
`malformedDiff` models validation failure; `fuelOut` reports exhausted
recursion fuel of the embedding; `notModelled` marks the multilevel
alignment of the absent `snakes.py` module. -/
inductive Err where
  | unsupportedValueKind
  | predicateConflict
  | unsupportedPredicate
  | unknownAlgorithm
  | assertFail
  | indexError
  | keyError
  | typeError
  | nameError
  | malformedDiff
  | fuelOut
  | notModelled
deriving DecidableEq

/-! ### Shallow sequence diff

`diff_sequence` and its three strategies live in `sequences.py`,
`seq_bruteforce.py`, `seq_difflib.py` and `seq_myers.py`; only
`sequences.py` is available.  The shallow aligner itself is modelled
from the spec (§4.2). -/

/-- A shallow sequence-diff entry over elements of type `α`: insert `v`
before source position `i`, or delete the element at source position
`i`.  Per spec §3 an `Add` consumes one target element and a `Remove`
one source element. -/
inductive SEnt (α : Type) where
  | add (i : Nat) (v : α)
  | remove (i : Nat)
deriving DecidableEq

/-- Source-index key of a shallow entry. -/
def SEnt.key : SEnt α → Nat
  | .add i _ => i
  | .remove i => i

/-- `count_consumed_symbols` of `diff_format.py`, modelled from the spec
(§3): how many source/target elements a shallow entry consumes. -/
def consumedS : SEnt α → Nat × Nat
  | .add _ _ => (0, 1)
  | .remove _ => (1, 0)

/-- Fueled length of a longest common subsequence under predicate `cmp`
(helper for the minimal edit script; returns 0 when out of fuel). -/
def lcsLF (cmp : α → α → Bool) : Nat → List α → List α → Nat
  | 0, _, _ => 0
  | f + 1, xs, ys =>
    match xs, ys with
    | x :: xs1, y :: ys1 =>
      if cmp x y then lcsLF cmp f xs1 ys1 + 1
      else max (lcsLF cmp f xs1 (y :: ys1)) (lcsLF cmp f (x :: xs1) ys1)
    | _, _ => 0

/-- Modelled from the spec: the exhaustive shallow sequence aligner
(`diff_sequence_bruteforce` of the absent `seq_bruteforce.py`, the
default strategy of `diff_sequence`), producing a minimum-edit-distance
script of `Add`/`Remove` entries keyed by non-decreasing source index
(spec §4.2).  `i` is the source index of the first element of `xs`;
fuel exhaustion yields `none`. -/
def seqDiffF (cmp : α → α → Bool) : Nat → List α → List α → Nat → Option (List (SEnt α))
  | 0, _, _, _ => none
  | f + 1, xs, ys, i =>
    match xs, ys with
    | [], [] => some []
    | _ :: xs1, [] => (seqDiffF cmp f xs1 [] (i + 1)).map (.remove i :: ·)
    | [], y :: ys1 => (seqDiffF cmp f [] ys1 i).map (.add i y :: ·)
    | x :: xs1, y :: ys1 =>
      if cmp x y then seqDiffF cmp f xs1 ys1 (i + 1)
      else if lcsLF cmp f xs1 (y :: ys1) ≥ lcsLF cmp f (x :: xs1) ys1 then
        (seqDiffF cmp f xs1 (y :: ys1) (i + 1)).map (.remove i :: ·)
      else
        (seqDiffF cmp f (x :: xs1) ys1 i).map (.add i y :: ·)

/-- Fuel sufficient for `seqDiffF` on `a`, `b`. -/
def seqFuel (a b : List α) : Nat := a.length + b.length + 1

/-- Validity of a shallow script `sd` turning `xs` into `ys`, where `i`
is the source index of the head of `xs`: positions not mentioned are
consumed pairwise by matched (`cmp`-equivalent) elements, a `remove i`
consumes the source head, an `add i y` produces the target head. -/
inductive Script (cmp : α → α → Bool) : Nat → List α → List α → List (SEnt α) → Prop where
  | done {i xs ys} : List.Forall₂ (fun x y => cmp x y = true) xs ys →
      Script cmp i xs ys []
  | skip {i x y xs ys sd} : cmp x y = true → Script cmp (i + 1) xs ys sd →
      Script cmp i (x :: xs) (y :: ys) sd
  | rem {i x xs ys sd} : Script cmp (i + 1) xs ys sd →
      Script cmp i (x :: xs) ys (.remove i :: sd)
  | add {i y xs ys sd} : Script cmp i xs ys sd →
      Script cmp i xs (y :: ys) (.add i y :: sd)

/-! ### Predicate registry

`default_predicates()` in `generic.py` builds
`defaultdict(lambda: (operator.__eq__,))`.  The model keeps the
defaultdict's explicit entries as an association list: `x in d` tests
explicit presence, while `d[x]` inserts the default tuple on a miss —
exactly the Python semantics that `diff_lists` (line 84) and
`diff_dicts` (line 183) rely on.  The differ registry is kept at its
default (`defaultdict(lambda: diff)`, read only with `.get`, which
never inserts), as every claim runs with default differs. -/

/-- A similarity predicate. -/
abbrev Pred := JVal → JVal → Bool

/-- Explicit entries of the predicates defaultdict. -/
abbrev PredMap := List (String × List Pred)

/-- The default predicate `operator.__eq__`. -/
def defaultPred : Pred := fun x y => decide (x = y)

/-- Python `path in predicates`: membership among explicit entries
(`__contains__` does not insert). -/
def pmContains (ps : PredMap) (path : String) : Bool :=
  (ps.lookup path).isSome

/-- Python `predicates[path]` on the defaultdict: return the explicit
entry, or insert and return the default tuple `(operator.__eq__,)`. -/
def pmGet (ps : PredMap) (path : String) : List Pred × PredMap :=
  match ps.lookup path with
  | some cs => (cs, ps)
  | none => ([defaultPred], ps ++ [(path, [defaultPred])])

/-- Registry states whose every explicit entry is the default singleton
tuple — the states reachable from `default_predicates()`. -/
def StEq (ps : PredMap) : Prop :=
  ∀ p cs, (p, cs) ∈ ps → cs = [defaultPred]

/-- Registry states whose every explicit entry registers at most one
predicate (so the multilevel branch of `diff_lists` is never taken). -/
def StOne (ps : PredMap) : Prop :=
  ∀ p cs, (p, cs) ∈ ps → cs.length ≤ 1

/-! ### The structural differ -/

/-- The type of the recursive differ: two values, the current path, and
the threaded predicate registry (mutated by defaultdict accesses). -/
abbrev DiffFn := JVal → JVal → String → PredMap → Except Err (List Entry × PredMap)

/-- Encode a shallow sequence entry as a diff entry. -/
def encodeS : SEnt JVal → Entry
  | .add i v => .add (.i i) v
  | .remove i => .remove (.i i)

/-- The inner loop of `diff_lists` (`generic.py` lines 121–127): for the
`n` pairs `a[i+k]`, `b[j+k]` deemed similar by the shallow alignment,
recursively diff the non-atomic ones and emit a `Patch` entry when the
recursive diff is non-empty; atomic pairs are skipped. -/
def dlPairs (recur : DiffFn) (a b : List JVal) (subpath : String) :
    Nat → Nat → Nat → PredMap → Except Err (List Entry × PredMap)
  | _, _, 0, ps => .ok ([], ps)
  | i, j, n + 1, ps =>
    match a.get? i, b.get? j with
    | some aval, some bval =>
      if is_atomic aval then dlPairs recur a b subpath (i + 1) (j + 1) n ps
      else do
        let (cd, ps1) ← recur aval bval subpath ps
        let (rest, ps2) ← dlPairs recur a b subpath (i + 1) (j + 1) n ps1
        if cd.isEmpty then .ok (rest, ps2)
        else .ok (.patch (.i i) cd :: rest, ps2)
    | _, _ => .error .indexError

/-- The entry loop of `diff_lists` (`generic.py` lines 103–136): before
each shallow entry, consume `n = max(0, key - i)` unmentioned similar
pairs, then consume the entry's source/target symbols and append it; the
final iteration consumes the remaining pairs after checking the
assertions `n >= 0` and `len(b) - j == n` (lines 117–118), which also
make the closing `assert i == len(a)`/`assert j == len(b)` (lines
139–140) hold. -/
def dlLoop (recur : DiffFn) (a b : List JVal) (subpath : String) :
    List (SEnt JVal) → Nat → Nat → PredMap → Except Err (List Entry × PredMap)
  | e :: rest, i, j, ps => do
    let n := e.key - i
    let (patches, ps1) ← dlPairs recur a b subpath i j n ps
    let (es, ps2) ←
      dlLoop recur a b subpath rest (i + n + (consumedS e).1) (j + n + (consumedS e).2) ps1
    .ok (patches ++ encodeS e :: es, ps2)
  | [], i, j, ps =>
    if i ≤ a.length ∧ j ≤ b.length ∧ a.length - i = b.length - j then
      dlPairs recur a b subpath i j (a.length - i) ps
    else .error .assertFail

/-- `diff_sequence_multilevel` (`generic.py` lines 59–72): reads
`predicates[path]` and delegates to `compute_snakes_multilevel` and
`compute_diff_from_snakes`.  Those two functions live in the absent
`snakes.py`; the multilevel computation itself is not modelled (no claim
exercises it) and is reported as `notModelled`. -/
def diffSequenceMultilevelC (ps : PredMap) (path : String) :
    Except Err (List Entry × PredMap) :=
  let (_, _) := pmGet ps path
  .error .notModelled

/-- Non-decreasing source keys of a sequence diff, the order the
sequence builder requires (spec §4.1). -/
def seqKeysOrdered : List Entry → Bool
  | [] => true
  | [_] => true
  | e1 :: e2 :: rest =>
    match e1.key, e2.key with
    | .i m, .i n => decide (m ≤ n) && seqKeysOrdered (e2 :: rest)
    | _, _ => false

/-- `diff_lists` body (`generic.py` lines 75–142), parameterized by the
recursive differ used on similar pairs.  The `predicates[path]` access
(line 84) inserts the default entry; more than one configured predicate
delegates to the multilevel differ after `assert shallow_diff is None`
(lines 85–87); otherwise the shallow script comes from `diff_sequence`
with `compares[0]` unless supplied by the caller.  `SequenceDiffBuilder`
and its `validated()` are modelled from the spec (§4.1): entries are
accumulated in order and validation rejects decreasing sequence keys
with `MalformedDiff`. -/
def diffListsC (recur : DiffFn) (a b : List JVal) (path : String) (ps : PredMap)
    (shallow_diff : Option (List (SEnt JVal))) : Except Err (List Entry × PredMap) :=
  let (compares, ps1) := pmGet ps path
  if compares.length > 1 then
    if shallow_diff.isSome then .error .assertFail
    else diffSequenceMultilevelC ps1 path
  else do
    let sd ← match shallow_diff with
      | some sd => Except.ok sd
      | none =>
        match compares with
        | c :: _ =>
          match seqDiffF c (seqFuel a b) a b 0 with
          | some sd => Except.ok sd
          | none => Except.error Err.fuelOut
        | [] => Except.error Err.indexError
    let (es, ps2) ← dlLoop recur a b (path ++ "/*") sd 0 0 ps1
    if seqKeysOrdered es then .ok (es, ps2) else .error .malformedDiff

/-- Keys of `a` as a Python set (deduplicated). -/
def setKeys (a : List (String × JVal)) : List String :=
  (a.map Prod.fst).dedup

/-- Python `sorted` on a list of strings. -/
def sortStr (ks : List String) : List String :=
  ks.insertionSort strLe

/-- Association-list lookup, Python `a[key]` for dicts. -/
def lookupKv : List (String × JVal) → String → Option JVal
  | [], _ => none
  | (k, v) :: rest, key => if k = key then some v else lookupKv rest key

/-- The middle loop of `diff_dicts` (`generic.py` lines 172–187) over
the sorted keys present in both dicts: same-typed non-atomic values are
recursively diffed (`Patch` when non-empty); otherwise, a predicate
registered for the current path raises the predicate-conflict
`RuntimeError` (line 185), and unequal values yield a `Replace`. -/
def ddMains (recur : DiffFn) (a b : List (String × JVal)) (path : String) :
    List String → PredMap → Except Err (List Entry × PredMap)
  | [], ps => .ok ([], ps)
  | k :: ks, ps =>
    match lookupKv a k, lookupKv b k with
    | some avalue, some bvalue =>
      if typeSame avalue bvalue && !is_atomic avalue then do
        let (dd, ps1) ← recur avalue bvalue (path ++ "/" ++ k) ps
        let (rest, ps2) ← ddMains recur a b path ks ps1
        if dd.isEmpty then .ok (rest, ps2)
        else .ok (.patch (.s k) dd :: rest, ps2)
      else
        if pmContains ps path then .error .predicateConflict
        else do
          let (rest, ps1) ← ddMains recur a b path ks ps
          if avalue = bvalue then .ok (rest, ps1)
          else .ok (.replace (.s k) bvalue :: rest, ps1)
    | _, _ => .error .keyError

/-- `Add` entries for the keys only in `b` (`generic.py` lines 189–190). -/
def ddAdds (b : List (String × JVal)) : List String → Except Err (List Entry)
  | [] => .ok []
  | k :: ks => do
    match lookupKv b k with
    | some v =>
      let rest ← ddAdds b ks
      .ok (.add (.s k) v :: rest)
    | none => .error .keyError

/-- Ordering of mapping-diff entries by key. -/
def entryKeyLe (e1 e2 : Entry) : Bool :=
  match e1.key, e2.key with
  | .s a, .s b => strLeB a b
  | .i m, .i n => decide (m ≤ n)
  | .i _, .s _ => true
  | .s _, .i _ => false

/-- `entryKeyLe` as a relation, for sorting. -/
def entryLe (e1 e2 : Entry) : Prop := entryKeyLe e1 e2 = true

instance : DecidableRel entryLe := fun e1 e2 => decEq (entryKeyLe e1 e2) true

instance : IsTotal Entry entryLe := by
  constructor
  intro e1 e2
  unfold entryLe entryKeyLe
  rcases e1.key with k1 | n1 <;> rcases e2.key with k2 | n2 <;> simp
  · exact IsTotal.total (r := strLe) k1 k2
  · exact Nat.le_total n1 n2

instance : IsTrans Entry entryLe := by
  constructor
  intro e1 e2 e3
  unfold entryLe entryKeyLe
  rcases e1.key with k1 | n1 <;> rcases e2.key with k2 | n2 <;>
    rcases e3.key with k3 | n3 <;> simp <;> intros <;> first
    | omega
    | exact IsTrans.trans (r := strLe) k1 k2 k3 (by assumption) (by assumption)

/-- `MappingDiffBuilder.validated()`, modelled from the spec (§3, §4.1):
mapping-diff entries are put in sorted-key order for determinism, and a
duplicate key is rejected with `MalformedDiff`. -/
def mappingValidated (es : List Entry) (ps : PredMap) :
    Except Err (List Entry × PredMap) :=
  if ((es.insertionSort entryLe).map Entry.key).Nodup then
    .ok (es.insertionSort entryLe, ps)
  else .error .malformedDiff

/-- `diff_dicts` body (`generic.py` lines 145–192), parameterized by the
recursive differ: `Remove` entries for `sorted(akeys - bkeys)`, the
middle loop over `sorted(akeys & bkeys)`, `Add` entries for
`sorted(bkeys - akeys)`, assembled through the modelled mapping
builder. -/
def diffDictsC (recur : DiffFn) (a b : List (String × JVal)) (path : String)
    (ps : PredMap) : Except Err (List Entry × PredMap) := do
  let (mains, ps1) ← ddMains recur a b path
    (sortStr ((setKeys a).filter fun k => (setKeys b).contains k)) ps
  let adds ← ddAdds b (sortStr ((setKeys b).filter fun k => !(setKeys a).contains k))
  mappingValidated
    (((sortStr ((setKeys a).filter fun k => !(setKeys b).contains k)).map
      fun k => Entry.remove (.s k)) ++ mains ++ adds) ps1

/-- `diff_strings` (`sequences.py` lines 42–45) delegates to
`diff_sequence_difflib` of the absent `seq_difflib.py`.  Modelled from
the spec (§4.4 step 4, §6): the pluggable character-level text differ, a
shallow sequence diff over the characters whose inserted characters are
carried as one-character strings. -/
def diff_strings (a b : String) : Except Err (List Entry) :=
  match seqDiffF (fun c d => c == d) (seqFuel a.data b.data) a.data b.data 0 with
  | some sd =>
    .ok (sd.map (fun e =>
      match e with
      | .add i c => Entry.add (.i i) (.str (String.mk [c]))
      | .remove i => Entry.remove (.i i)))
  | none => .error .fuelOut

/-- `diff` (`generic.py` lines 35–56): dispatch on the runtime kinds of
`a` and `b` — both lists to `diff_lists`, both dicts to `diff_dicts`,
both strings to `diff_strings` — otherwise the `RuntimeError`
"Can currently only diff list, dict, or str objects."  The recursion is
bounded by fuel; the trailing `validate_diff` call repeats the builder
validation already performed and is not modelled separately. -/
def diffF : Nat → DiffFn
  | 0, _, _, _, _ => .error .fuelOut
  | fuel + 1, a, b, path, ps =>
    match a, b with
    | .list xs, .list ys => diffListsC (diffF fuel) xs ys path ps none
    | .obj xs, .obj ys => diffDictsC (diffF fuel) xs ys path ps
    | .str x, .str y =>
      match diff_strings x y with
      | .ok d => .ok (d, ps)
      | .error e => .error e
    | _, _ => .error .unsupportedValueKind

/-- `diff_lists` as independently callable (`generic.py` line 75), at
recursion fuel `fuel` for the nested `diff` calls. -/
def diff_lists (fuel : Nat) (a b : List JVal) (path : String) (ps : PredMap)
    (shallow_diff : Option (List (SEnt JVal))) : Except Err (List Entry × PredMap) :=
  diffListsC (diffF fuel) a b path ps shallow_diff

/-- `diff_dicts` as independently callable (`generic.py` line 145), at
recursion fuel `fuel` for the nested `diff` calls. -/
def diff_dicts (fuel : Nat) (a b : List (String × JVal)) (path : String)
    (ps : PredMap) : Except Err (List Entry × PredMap) :=
  diffDictsC (diffF fuel) a b path ps

/-- Projection: the error of a differ result, if any. -/
def errOf (r : Except Err (List Entry × PredMap)) : Option Err :=
  match r with
  | .error e => some e
  | .ok _ => none

/-- Projection: the entry list of a successful differ result.  (The
registry component holds functions and is dropped so results are
decidably comparable.) -/
def okDiff (r : Except Err (List Entry × PredMap)) : Option (List Entry) :=
  r.toOption.map Prod.fst

/-! ### `sequences.py`: strategy dispatch -/

/-- The module-level algorithm selector (`sequences.py` line 20). -/
def diff_sequence_algorithm : String := "bruteforce"

/-- The three shallow alignment strategies of `sequences.py`. -/
inductive SeqAlgo where
  | difflib
  | bruteforce
  | myers
deriving DecidableEq

/-- The dispatch of `diff_sequence` (`sequences.py` lines 23–39): which
strategy implementation a call is routed to, given the selector string
and whether the supplied compare is plain `operator.__eq__`.  `difflib`
rejects a non-equality predicate; an unknown selector raises. -/
def diff_sequence_dispatch (algorithm : String) (compareIsEq : Bool) :
    Except Err SeqAlgo :=
  if algorithm = "difflib" then
    if !compareIsEq then .error .unsupportedPredicate else .ok .difflib
  else if algorithm = "bruteforce" then .ok .bruteforce
  else if algorithm = "myers" then .ok .myers
  else .error .unknownAlgorithm

/-! ### `notebooks.py`: notebook entry points

Python binds call arguments before running the callee: an unexpected
keyword argument raises `TypeError` at the call site. -/

/-- Python call binding, restricted to what the claims need: every
keyword argument must name a parameter of the callee and the positional
arguments must fit, else `TypeError`. -/
def pyCallCheck (params : List String) (positional : Nat) (kwargs : List String) :
    Except Err Unit :=
  if kwargs.all (fun k => params.contains k) && positional ≤ params.length then .ok ()
  else .error .typeError

/-- The parameters of `generic.diff_dicts`
(`generic.py` line 145: `diff_dicts(a, b, path="", predicates=None, differs=None)`). -/
def diff_dicts_params : List String := ["a", "b", "path", "predicates", "differs"]

/-- The parameters of `generic.diff_lists` (`generic.py` line 75:
`diff_lists(a, b, path="", predicates=None, differs=None, shallow_diff=None)`). -/
def diff_lists_params : List String :=
  ["a", "b", "path", "predicates", "differs", "shallow_diff"]

/-- `diff_single_cells` (`notebooks.py` lines 142–143): calls
`diff_dicts(a, b, subdiffs={"source": diff_source, "outputs": diff_outputs})`.
The body after a successful binding is never reached, since `subdiffs`
is not a parameter of `diff_dicts`. -/
def diff_single_cells (a b : JVal) : Except Err (List Entry) := do
  let _ := (a, b)
  pyCallCheck diff_dicts_params 2 ["subdiffs"]
  .error .notModelled

/-- `diff_notebooks` (`notebooks.py` lines 161–163): calls
`diff_dicts(nba, nbb, subdiffs={"cells": diff_cells})`.  The body after
a successful binding is never reached, since `subdiffs` is not a
parameter of `diff_dicts`. -/
def diff_notebooks (nba nbb : JVal) : Except Err (List Entry) := do
  let _ := (nba, nbb)
  pyCallCheck diff_dicts_params 2 ["subdiffs"]
  .error .notModelled

/-- `old_diff_cells` (`notebooks.py` lines 155–158): its first statement
`shallow_diff = diff_sequence(cells_a, cells_b, compare_cells)` reads
the global name `compare_cells`, which is defined nowhere in the module,
so the call raises `NameError` before `diff_lists` (which is invoked
with the unknown keyword `compare=operator.__eq__`, itself a
`TypeError`) is ever reached. -/
def old_diff_cells (cells_a cells_b : JVal) : Except Err (List Entry) := do
  let _ := (cells_a, cells_b)
  Except.error Err.nameError

/-! ### The replay helper

Modelled from the spec: the patch/apply engine is an external
collaborator ("applying the produced diff to `a` reconstructs `b`
exactly", verified "by an equivalent in-core replay helper built for
testing only", spec §8).  `patchList` walks sequence entries in
non-decreasing source-key order, keeping unmentioned elements;
`patchObj` applies keyed mapping entries and re-sorts; `patchStr`
replays a character diff whose inserted characters are one-character
strings; `patchVal` dispatches on the value kind and recurses through
`Patch` entries.  An empty diff leaves any value unchanged. -/

/-- Sort an association list by key (normal form of a patched dict). -/
def kvLe (kv1 kv2 : String × JVal) : Prop := strLeB kv1.1 kv2.1 = true

instance : DecidableRel kvLe := fun kv1 kv2 => decEq (strLeB kv1.1 kv2.1) true

instance : IsTotal (String × JVal) kvLe := by
  constructor
  intro kv1 kv2
  exact IsTotal.total (r := strLe) kv1.1 kv2.1

instance : IsTrans (String × JVal) kvLe := by
  constructor
  intro kv1 kv2 kv3 h1 h2
  exact IsTrans.trans (r := strLe) kv1.1 kv2.1 kv3.1 h1 h2

/-- Sort dict entries by key. -/
def sortKvs (kvs : List (String × JVal)) : List (String × JVal) :=
  kvs.insertionSort kvLe

/-- Remove the entry with the given key from an association list. -/
def eraseKv : List (String × JVal) → String → List (String × JVal)
  | [], _ => []
  | (k, v) :: rest, key => if k = key then rest else (k, v) :: eraseKv rest key

/-- Replace the value at the given key in an association list. -/
def setKv : List (String × JVal) → String → JVal → List (String × JVal)
  | [], _, _ => []
  | (k, v) :: rest, key, w =>
    if k = key then (k, w) :: rest else (k, v) :: setKv rest key w

mutual

/-- Modelled from the spec: replay a diff against a value (the external
patch collaborator, spec §6/§8). -/
def patchVal : JVal → List Entry → Option JVal
  | v, [] => some v
  | .list xs, d => (patchList xs d 0).map JVal.list
  | .obj kvs, d => (patchObj kvs d).map (fun r => JVal.obj (sortKvs r))
  | .str s, d => (patchStr s.data d 0).map (fun cs => JVal.str (String.mk cs))
  | _, _ => none

/-- Replay sequence entries over the elements of a list; `pos` is the
source index of the head of `xs`.  Entries must come in non-decreasing
source-key order. -/
def patchList : List JVal → List Entry → Nat → Option (List JVal)
  | xs, [], _ => some xs
  | xs, .add (.i k) v :: d, pos =>
    if pos ≤ k && k - pos ≤ xs.length then
      (patchList (xs.drop (k - pos)) d k).map
        (fun rest => xs.take (k - pos) ++ v :: rest)
    else none
  | xs, .remove (.i k) :: d, pos =>
    if pos ≤ k && k - pos < xs.length then
      (patchList (xs.drop (k - pos + 1)) d (k + 1)).map
        (fun rest => xs.take (k - pos) ++ rest)
    else none
  | xs, .replace (.i k) v :: d, pos =>
    if pos ≤ k && k - pos < xs.length then
      (patchList (xs.drop (k - pos + 1)) d (k + 1)).map
        (fun rest => xs.take (k - pos) ++ v :: rest)
    else none
  | xs, .patch (.i k) sub :: d, pos =>
    if h : pos ≤ k ∧ k - pos < xs.length then do
      let x := xs.get ⟨k - pos, h.2⟩
      let x2 ← patchVal x sub
      let rest ← patchList (xs.drop (k - pos + 1)) d (k + 1)
      some (xs.take (k - pos) ++ x2 :: rest)
    else none
  | _, _ :: _, _ => none

/-- Replay mapping entries over an association list, keyed lookups. -/
def patchObj : List (String × JVal) → List Entry → Option (List (String × JVal))
  | kvs, [] => some kvs
  | kvs, .remove (.s k) :: d =>
    if (lookupKv kvs k).isSome then patchObj (eraseKv kvs k) d else none
  | kvs, .replace (.s k) v :: d =>
    if (lookupKv kvs k).isSome then patchObj (setKv kvs k v) d else none
  | kvs, .add (.s k) v :: d =>
    if (lookupKv kvs k).isSome then none else patchObj (kvs ++ [(k, v)]) d
  | kvs, .patch (.s k) sub :: d => do
    let v ← lookupKv kvs k
    let v2 ← patchVal v sub
    patchObj (setKv kvs k v2) d
  | _, _ :: _ => none

/-- Replay character entries over the characters of a string; inserted
characters are carried as one-character strings. -/
def patchStr : List Char → List Entry → Nat → Option (List Char)
  | cs, [], _ => some cs
  | cs, .add (.i k) (.str v) :: d, pos =>
    match v.data with
    | [c] =>
      if pos ≤ k && k - pos ≤ cs.length then
        (patchStr (cs.drop (k - pos)) d k).map
          (fun rest => cs.take (k - pos) ++ c :: rest)
      else none
    | _ => none
  | cs, .remove (.i k) :: d, pos =>
    if pos ≤ k && k - pos < cs.length then
      (patchStr (cs.drop (k - pos + 1)) d (k + 1)).map
        (fun rest => cs.take (k - pos) ++ rest)
    else none
  | _, _ :: _, _ => none

end

/-! ### Proof-level predicates on the recursive differ -/

/-- The recursive differ keeps the registry in a default-predicates
state. -/
def PreservesSt (recur : DiffFn) : Prop :=
  ∀ v w path ps d ps2, StEq ps → recur v w path ps = .ok (d, ps2) → StEq ps2

/-- The recursive differ never surfaces an assertion failure. -/
def NoAssert (recur : DiffFn) : Prop :=
  ∀ v w path ps, recur v w path ps ≠ .error .assertFail

/-- The recursive differ never raises the unsupported-kind error on a
kind-matching pair in a default-predicates state. -/
def NoUnsupT (recur : DiffFn) : Prop :=
  ∀ v w path ps, StEq ps → kindMatch v w = true →
    recur v w path ps ≠ .error .unsupportedValueKind

/-- The recursive differ round-trips: a successful sub-diff replays the
first value into the second. -/
def RecRound (recur : DiffFn) : Prop :=
  ∀ v w path ps d ps2, WfJ v → WfJ w → StEq ps →
    recur v w path ps = .ok (d, ps2) → patchVal v d = some w

/-- Encoding of a shallow character entry used by `diff_strings`. -/
def encodeChar : SEnt Char → Entry
  | .add i c => .add (.i i) (.str (String.mk [c]))
  | .remove i => .remove (.i i)

/-- A mapping entry is applicable to an association list: precisely the
side conditions the patch helper checks before acting on the entry. -/
def Applies : Entry → List (String × JVal) → Prop
  | .remove (.s k), kvs => (lookupKv kvs k).isSome = true
  | .replace (.s k) _, kvs => (lookupKv kvs k).isSome = true
  | .add (.s k) _, kvs => lookupKv kvs k = none
  | .patch (.s k) sub, kvs =>
      ∃ v v2, lookupKv kvs k = some v ∧ patchVal v sub = some v2
  | _, _ => False

/-- The value a mapping entry leaves at its own key, `none` for a
removal. -/
def effectE : Entry → List (String × JVal) → Option JVal
  | .remove _, _ => none
  | .replace _ v, _ => some v
  | .add _ v, _ => some v
  | .patch (.s k) sub, kvs => (lookupKv kvs k).bind (fun v => patchVal v sub)
  | .patch (.i _) _, _ => none

/-! ### Helper lemmas -/

theorem seqDiffF_script {cmp : α → α → Bool} :
    ∀ (f : Nat) (xs ys : List α) (i : Nat) (sd : List (SEnt α)),
      seqDiffF cmp f xs ys i = some sd → Script cmp i xs ys sd := by
  intro f
  induction f with
  | zero => intro xs ys i sd h; simp [seqDiffF] at h
  | succ f ih =>
    intro xs ys i sd h
    match xs, ys with
    | [], [] =>
      simp [seqDiffF] at h
      subst h
      exact Script.done List.Forall₂.nil
    | x :: xs1, [] =>
      simp [seqDiffF, Option.map_eq_some'] at h
      obtain ⟨sd1, h1, rfl⟩ := h
      exact Script.rem (ih xs1 [] (i + 1) sd1 h1)
    | [], y :: ys1 =>
      simp [seqDiffF, Option.map_eq_some'] at h
      obtain ⟨sd1, h1, rfl⟩ := h
      exact Script.add (ih [] ys1 i sd1 h1)
    | x :: xs1, y :: ys1 =>
      simp only [seqDiffF] at h
      by_cases hc : cmp x y = true
      · rw [if_pos hc] at h
        exact Script.skip hc (ih xs1 ys1 (i + 1) sd h)
      · rw [if_neg hc] at h
        by_cases hl : lcsLF cmp f xs1 (y :: ys1) ≥ lcsLF cmp f (x :: xs1) ys1
        · rw [if_pos hl, Option.map_eq_some'] at h
          obtain ⟨sd1, h1, rfl⟩ := h
          exact Script.rem (ih xs1 (y :: ys1) (i + 1) sd1 h1)
        · rw [if_neg hl, Option.map_eq_some'] at h
          obtain ⟨sd1, h1, rfl⟩ := h
          exact Script.add (ih (x :: xs1) ys1 i sd1 h1)

theorem defaultPred_eq_true_iff {x y : JVal} : defaultPred x y = true ↔ x = y := by
  simp [defaultPred]

theorem lookup_mem {α : Type} {ps : List (String × α)} {path : String} {cs : α}
    (h : ps.lookup path = some cs) : (path, cs) ∈ ps := by
  induction ps with
  | nil => simp [List.lookup] at h
  | cons kv rest ih =>
    obtain ⟨k, v⟩ := kv
    simp only [List.lookup] at h
    by_cases hk : path = k
    · subst hk
      simp at h
      subst h
      exact List.mem_cons_self _ _
    · have hb : (path == k) = false := by
        simp [hk]
      rw [hb] at h
      exact List.mem_cons_of_mem _ (ih h)

theorem pmGet_of_StEq {ps : PredMap} (path : String) (h : StEq ps) :
    (pmGet ps path).1 = [defaultPred] ∧ StEq (pmGet ps path).2 := by
  unfold pmGet
  cases hl : ps.lookup path with
  | none =>
    refine ⟨rfl, ?_⟩
    intro p cs hmem
    rcases List.mem_append.mp hmem with h1 | h1
    · exact h p cs h1
    · simp at h1
      exact h1.2
  | some cs =>
    have hcs : cs = [defaultPred] := h path cs (lookup_mem hl)
    exact ⟨by simp [hcs], h⟩

/-! ### Claim theorems: strategy dispatch (C7) -/

/-- C7 counterexample: the claim says that when no alignment strategy is
explicitly configured, `diff_sequence` uses the Myers-style classic
LCS strategy; in fact the module-level default
`diff_sequence_algorithm = "bruteforce"` routes the call to the
exhaustive brute-force aligner, not to Myers. -/
theorem default_dispatch_not_myers :
    diff_sequence_dispatch diff_sequence_algorithm true ≠ Except.ok SeqAlgo.myers := by
  simp [diff_sequence_dispatch, diff_sequence_algorithm]

/-- C7 (amended): with no strategy explicitly configured,
`diff_sequence` dispatches to the exhaustive brute-force aligner — the
module default is `"bruteforce"`, whatever predicate is in use. -/
theorem default_dispatch_bruteforce :
    ∀ c : Bool, diff_sequence_dispatch diff_sequence_algorithm c = Except.ok SeqAlgo.bruteforce := by
  intro c
  simp [diff_sequence_dispatch, diff_sequence_algorithm]

/-! ### Claim theorems: notebook entry points (C10) -/

/-- C10: the notebook entry points are all broken in this snapshot —
`diff_single_cells` and `diff_notebooks` invoke `diff_dicts` with the
keyword argument `subdiffs` that its signature does not accept, raising
`TypeError`, and `old_diff_cells` fails on the undefined global
`compare_cells` (before its `diff_lists(..., compare=...)` call, which
would itself be a `TypeError`).  No notebook diff is ever produced
through these entry points. -/
theorem notebook_entry_points_fail :
    ∀ a b : JVal,
      diff_single_cells a b = .error .typeError ∧
      diff_notebooks a b = .error .typeError ∧
      old_diff_cells a b = .error .nameError := by
  intro a b
  refine ⟨?_, ?_, rfl⟩ <;> rfl

/-! ### Claim theorems: identity is broken by the defaultdict leak (C4) -/

/-- C4, evaluation at the failing input: for
`a = [[], {"k": 1}]`, the self-diff `diff(a, a)` raises the
predicate-conflict `RuntimeError` instead of returning the empty diff.
`diff_lists` reaches `predicates[path]` (`generic.py` line 84) for the
inner empty list at path `/*`, which inserts a default entry into the
predicates defaultdict; the sibling dict `{"k": 1}` at the same `/*`
path then finds `path in predicates` true (line 183) and raises
(line 185). -/
theorem diff_self_raises_on_mixed_list :
    diffF 10 (.list [.list [], .obj [("k", .atom 1)]])
      (.list [.list [], .obj [("k", .atom 1)]]) "" []
      = .error .predicateConflict := by
  rfl

/-! ### Claim theorems: dict diff of text values (C6) -/

/-- C6 counterexample: the claim says a pair of unequal atomic values —
"atomic" in the spec's sense, which includes opaque text — at a shared
key yields a `Replace` and never a recursive `Patch` into the text.  In
the code strings are not `is_atomic`, so the shared key `"k"` with
values `"ab"` and `"ac"` is recursed into, producing a `Patch` entry
holding a character diff rather than `Replace("k", "ac")`. -/
theorem dict_string_pair_patches_not_replaces :
    okDiff (diff_dicts 10 [("k", .str "ab")] [("k", .str "ac")] "" [])
        = some [.patch (.s "k") [.remove (.i 1), .add (.i 2) (.str "c")]] ∧
      [Entry.patch (.s "k") [.remove (.i 1), .add (.i 2) (.str "c")]]
        ≠ [Entry.replace (.s "k") (.str "ac")] := by
  constructor
  · rfl
  · decide

/-! ### Claim theorems: mapping-diff entry order (C5) -/

theorem mappingValidated_sorted {es es2 : List Entry} {ps ps2 : PredMap}
    (h : mappingValidated es ps = .ok (es2, ps2)) : es2.Pairwise entryLe := by
  unfold mappingValidated at h
  split at h
  · cases h
    exact List.sorted_insertionSort entryLe es
  · cases h

/-- C5: every successful `diff_dicts` result lists its entries — all
kinds together — in sorted-key order; the key sets are themselves
traversed in sorted order, so the result is deterministic regardless of
the iteration order of the input mappings. -/
theorem diff_dicts_entries_sorted (f : Nat) (a b : List (String × JVal))
    (path : String) (ps : PredMap) (es : List Entry) (ps2 : PredMap)
    (h : diff_dicts f a b path ps = .ok (es, ps2)) : es.Pairwise entryLe := by
  unfold diff_dicts diffDictsC at h
  simp only [Bind.bind, Except.bind] at h
  obtain ⟨r, hr⟩ : ∃ r, ddMains (diffF f) a b path
      (sortStr ((setKeys a).filter fun k => (setKeys b).contains k)) ps = r := ⟨_, rfl⟩
  rw [hr] at h
  match r with
  | .error e => cases h
  | .ok (mains, ps1) =>
    obtain ⟨r2, hr2⟩ : ∃ r2, ddAdds b
        (sortStr ((setKeys b).filter fun k => !(setKeys a).contains k)) = r2 := ⟨_, rfl⟩
    rw [hr2] at h
    match r2 with
    | .error e => cases h
    | .ok adds => exact mappingValidated_sorted h

/-- C5 witness (spec scenario A): `diff_dicts({"a":1,"b":2}, {"b":2,"c":3})`
succeeds with entries `[Remove "a", Add "c" 3]`, which are sorted. -/
theorem diff_dicts_entries_sorted_witness :
    diff_dicts 3 [("a", .atom 1), ("b", .atom 2)] [("b", .atom 2), ("c", .atom 3)] "" []
        = .ok ([.remove (.s "a"), .add (.s "c") (.atom 3)], []) ∧
      List.Pairwise entryLe [Entry.remove (.s "a"), Entry.add (.s "c") (.atom 3)] :=
  ⟨rfl, diff_dicts_entries_sorted 3 [("a", .atom 1), ("b", .atom 2)]
    [("b", .atom 2), ("c", .atom 3)] "" [] _ [] rfl⟩

/-! ### Claim theorems: predicate conflict in dict diff (C8) -/

/-- C8: when a predicate is registered for the current path and the
first key present in both mappings (in sorted order) resolves to a
plain value comparison — its values atomic or of differing kinds, hence
not recursed — `diff_dicts` fails immediately with the
predicate-conflict error; the misconfiguration is not silently
ignored. -/
theorem diff_dicts_predicate_conflict (f : Nat) (a b : List (String × JVal))
    (path : String) (ps : PredMap) (k : String) (rest : List String) (av bv : JVal)
    (hcommon : sortStr ((setKeys a).filter fun kk => (setKeys b).contains kk) = k :: rest)
    (hav : lookupKv a k = some av) (hbv : lookupKv b k = some bv)
    (hplain : (typeSame av bv && !is_atomic av) = false)
    (hreg : pmContains ps path = true) :
    diff_dicts f a b path ps = .error .predicateConflict := by
  unfold diff_dicts diffDictsC
  rw [hcommon]
  simp only [Bind.bind, Except.bind, ddMains, hav, hbv, hplain, hreg]
  rfl

/-- C8 witness: dicts `{"k": 1}` and `{"k": 2}` under a predicate
registered for the root path. -/
theorem diff_dicts_predicate_conflict_witness :
    sortStr ((setKeys [("k", JVal.atom 1)]).filter fun kk =>
        (setKeys [("k", JVal.atom 2)]).contains kk) = ["k"] ∧
      lookupKv [("k", JVal.atom 1)] "k" = some (.atom 1) ∧
      lookupKv [("k", JVal.atom 2)] "k" = some (.atom 2) ∧
      (typeSame (.atom 1) (.atom 2) && !is_atomic (.atom 1)) = false ∧
      pmContains [("", [defaultPred])] "" = true ∧
      diff_dicts 3 [("k", JVal.atom 1)] [("k", JVal.atom 2)] "" [("", [defaultPred])]
        = .error .predicateConflict :=
  ⟨rfl, rfl, rfl, rfl, rfl,
    diff_dicts_predicate_conflict 3 [("k", .atom 1)] [("k", .atom 2)] "" [("", [defaultPred])]
      "k" [] (.atom 1) (.atom 2) rfl rfl rfl rfl rfl⟩

/-! ### Claim theorems: atomic aligned pairs are never recursed (C9) -/

/-- C9: in `diff_lists`, an aligned pair of atomic scalars — here two
atoms matched by a loose predicate registered for the path — is never
recursed into and produces no diff entry at all: the result is the
empty diff even though the two values differ. -/
theorem aligned_atomic_pair_silently_equal (f : Nat) (path : String) (ps : PredMap)
    (p : Pred) (x y : Int) (hl : ps.lookup path = some [p])
    (hp : p (.atom x) (.atom y) = true) (hne : x ≠ y) :
    diff_lists f [.atom x] [.atom y] path ps none = .ok ([], ps) := by
  unfold diff_lists diffListsC pmGet
  rw [hl]
  simp [seqDiffF, seqFuel, hp, dlLoop, dlPairs, is_atomic, seqKeysOrdered,
    Bind.bind, Except.bind]

/-- C9 witness: the always-true predicate aligns `1` with `2`; the pair
is silently treated as equal. -/
theorem aligned_atomic_pair_silently_equal_witness :
    ([("", [fun _ _ => true])] : PredMap).lookup "" = some [fun _ _ => true] ∧
      (fun (_ _ : JVal) => true) (.atom 1) (.atom 2) = true ∧
      (1 : Int) ≠ 2 ∧
      diff_lists 3 [.atom 1] [.atom 2] "" [("", [fun _ _ => true])] none
        = .ok ([], [("", [fun _ _ => true])]) :=
  ⟨rfl, rfl, by decide,
    aligned_atomic_pair_silently_equal 3 "" [("", [fun _ _ => true])]
      (fun _ _ => true) 1 2 rfl rfl (by decide)⟩

/-! ### Script toolkit: peeling a shallow script along the loop cursors -/

theorem script_key_ge {cmp : α → α → Bool} :
    ∀ {i : Nat} {xs ys : List α} {sd : List (SEnt α)},
      Script cmp i xs ys sd → ∀ e ∈ sd, i ≤ e.key := by
  intro i xs ys sd h
  induction h with
  | done _ => intro e he; cases he
  | skip _ _ ih =>
    intro e he
    exact Nat.le_of_succ_le (ih e he)
  | rem _ ih =>
    intro e he
    rcases List.mem_cons.mp he with rfl | he2
    · exact Nat.le_refl _
    · exact Nat.le_of_succ_le (ih e he2)
  | add _ ih =>
    intro e he
    rcases List.mem_cons.mp he with rfl | he2
    · exact Nat.le_refl _
    · exact ih e he2

theorem script_cons_gt {cmp : α → α → Bool} {i : Nat} {xs ys : List α}
    {e : SEnt α} {sd : List (SEnt α)} (h : Script cmp i xs ys (e :: sd))
    (hgt : i < e.key) :
    ∃ x y xs2 ys2, xs = x :: xs2 ∧ ys = y :: ys2 ∧ cmp x y = true ∧
      Script cmp (i + 1) xs2 ys2 (e :: sd) := by
  cases h with
  | skip hc h2 => exact ⟨_, _, _, _, rfl, rfl, hc, h2⟩
  | rem h2 => exact absurd hgt (by simp [SEnt.key])
  | add h2 => exact absurd hgt (by simp [SEnt.key])

theorem script_cons_rem {cmp : α → α → Bool} {i : Nat} {xs ys : List α}
    {sd : List (SEnt α)} (h : Script cmp i xs ys (.remove i :: sd)) :
    ∃ x xs2, xs = x :: xs2 ∧ Script cmp (i + 1) xs2 ys sd := by
  cases h with
  | skip hc h2 =>
    have := script_key_ge h2 (.remove i) (List.mem_cons_self _ _)
    simp [SEnt.key] at this
  | rem h2 => exact ⟨_, _, rfl, h2⟩

theorem script_cons_add {cmp : α → α → Bool} {i : Nat} {xs ys : List α}
    {v : α} {sd : List (SEnt α)} (h : Script cmp i xs ys (.add i v :: sd)) :
    ∃ ys2, ys = v :: ys2 ∧ Script cmp i xs ys2 sd := by
  cases h with
  | skip hc h2 =>
    have := script_key_ge h2 (.add i v) (List.mem_cons_self _ _)
    simp [SEnt.key] at this
  | add h2 => exact ⟨_, rfl, h2⟩

theorem drop_cons_inv {l : List α} {i : Nat} {x : α} {t : List α}
    (h : l.drop i = x :: t) :
    l.get? i = some x ∧ t = l.drop (i + 1) ∧ i < l.length := by
  have hi : i < l.length := by
    by_contra hh
    push_neg at hh
    rw [List.drop_eq_nil_of_le hh] at h
    cases h
  rw [List.drop_eq_getElem_cons hi] at h
  obtain ⟨h1, h2⟩ := List.cons.inj h
  refine ⟨?_, h2.symm, hi⟩
  rw [List.get?_eq_getElem?, List.getElem?_eq_getElem hi, h1]

/-- Peeling one loop iteration, by induction on the distance `n` from
the cursor to the entry key. -/
theorem script_step_aux {cmp : α → α → Bool} {a b : List α} :
    ∀ (n i j : Nat) (e : SEnt α) (sd : List (SEnt α)),
      i ≤ a.length → j ≤ b.length → e.key = i + n →
      Script cmp i (a.drop i) (b.drop j) (e :: sd) →
      (∀ k, k < n →
        ∃ x y, a.get? (i + k) = some x ∧ b.get? (j + k) = some y ∧ cmp x y = true) ∧
      i + n + (consumedS e).1 ≤ a.length ∧
      j + n + (consumedS e).2 ≤ b.length ∧
      Script cmp (i + n + (consumedS e).1)
        (a.drop (i + n + (consumedS e).1))
        (b.drop (j + n + (consumedS e).2)) sd ∧
      (∀ v, e = .add e.key v → b.get? (j + n) = some v) := by
  intro n
  induction n with
  | zero =>
    intro i j e sd hi hj hn hS
    cases e with
    | remove m =>
      have hm : m = i := by
        simp only [SEnt.key] at hn
        omega
      subst m
      obtain ⟨x, xs2, hx, hS2⟩ := script_cons_rem hS
      obtain ⟨hget, ht, hlt⟩ := drop_cons_inv hx
      refine ⟨fun k hk => absurd hk (Nat.not_lt_zero k), ?_, ?_, ?_, ?_⟩
      · simp [consumedS]; omega
      · simp [consumedS]; omega
      · simp only [consumedS]
        rw [ht] at hS2
        rw [show i + 0 + 1 = i + 1 by omega, show j + 0 + 0 = j by omega]
        exact hS2
      · intro v hv
        exact SEnt.noConfusion hv
    | add m v0 =>
      have hm : m = i := by
        simp only [SEnt.key] at hn
        omega
      subst m
      obtain ⟨ys2, hy, hS2⟩ := script_cons_add hS
      obtain ⟨hget, ht, hlt⟩ := drop_cons_inv hy
      refine ⟨fun k hk => absurd hk (Nat.not_lt_zero k), ?_, ?_, ?_, ?_⟩
      · simp [consumedS]; omega
      · simp [consumedS]; omega
      · simp only [consumedS]
        rw [ht] at hS2
        rw [show i + 0 + 0 = i by omega, show j + 0 + 1 = j + 1 by omega]
        exact hS2
      · intro w hw
        simp only [SEnt.add.injEq] at hw
        rw [← hw.2, show j + 0 = j by omega]
        exact hget
  | succ n ih =>
    intro i j e sd hi hj hn hS
    obtain ⟨x, y, xs2, ys2, hx, hy, hc, hS2⟩ := script_cons_gt hS (by omega)
    obtain ⟨hgx, htx, hlx⟩ := drop_cons_inv hx
    obtain ⟨hgy, hty, hly⟩ := drop_cons_inv hy
    rw [htx] at hS2
    rw [hty] at hS2
    obtain ⟨hwin, hb1, hb2, hS3, hv⟩ :=
      ih (i + 1) (j + 1) e sd (by omega) (by omega) (by omega) hS2
    refine ⟨?_, by omega, by omega, ?_, ?_⟩
    · intro k hk
      match k with
      | 0 => exact ⟨x, y, by simpa using hgx, by simpa using hgy, hc⟩
      | k + 1 =>
        obtain ⟨x2, y2, h1, h2, h3⟩ := hwin k (by omega)
        exact ⟨x2, y2, by rw [show i + (k + 1) = i + 1 + k by omega]; exact h1,
          by rw [show j + (k + 1) = j + 1 + k by omega]; exact h2, h3⟩
    · rw [show i + (n + 1) + (consumedS e).1 = i + 1 + n + (consumedS e).1 by omega,
        show j + (n + 1) + (consumedS e).2 = j + 1 + n + (consumedS e).2 by omega]
      exact hS3
    · intro v hvv
      rw [show j + (n + 1) = j + 1 + n by omega]
      exact hv v hvv

/-- Peeling one loop iteration: the `n = e.key - i` positions before the
entry are `cmp`-matched pairs, the cursors stay in bounds after
consuming them and the entry’s symbols, the remaining script stays
valid, and an `add` entry carries the target element at the insertion
point. -/
theorem script_step {cmp : α → α → Bool} {a b : List α} {i j : Nat}
    {e : SEnt α} {sd : List (SEnt α)}
    (hi : i ≤ a.length) (hj : j ≤ b.length)
    (hS : Script cmp i (a.drop i) (b.drop j) (e :: sd)) :
    (∀ k, k < e.key - i →
      ∃ x y, a.get? (i + k) = some x ∧ b.get? (j + k) = some y ∧ cmp x y = true) ∧
    i + (e.key - i) + (consumedS e).1 ≤ a.length ∧
    j + (e.key - i) + (consumedS e).2 ≤ b.length ∧
    Script cmp (i + (e.key - i) + (consumedS e).1)
      (a.drop (i + (e.key - i) + (consumedS e).1))
      (b.drop (j + (e.key - i) + (consumedS e).2)) sd ∧
    (∀ v, e = .add e.key v → b.get? (j + (e.key - i)) = some v) := by
  have hki : i ≤ e.key := script_key_ge hS e (List.mem_cons_self _ _)
  exact script_step_aux (e.key - i) i j e sd hi hj (by omega) hS

/-- An exhausted script certifies that the remaining elements are
`cmp`-matched pairwise (a script `[]` may still skip matched pairs). -/
theorem script_nil_inv {cmp : α → α → Bool} {i : Nat} {xs ys : List α}
    (h : Script cmp i xs ys []) :
    List.Forall₂ (fun x y => cmp x y = true) xs ys := by
  generalize hsd : ([] : List (SEnt α)) = sd0 at h
  induction h with
  | done hF => exact hF
  | skip hc _ ih => exact List.Forall₂.cons hc (ih hsd)
  | rem _ _ => cases hsd
  | add _ _ => cases hsd

/-- The final loop iteration: an exhausted script leaves equally many
`cmp`-matched pairs on both sides. -/
theorem script_done_inv {cmp : α → α → Bool} {a b : List α} {i j : Nat}
    (hi : i ≤ a.length) (hj : j ≤ b.length)
    (hS : Script cmp i (a.drop i) (b.drop j) []) :
    a.length - i = b.length - j ∧
    ∀ k, k < a.length - i →
      ∃ x y, a.get? (i + k) = some x ∧ b.get? (j + k) = some y ∧ cmp x y = true := by
  have hF := script_nil_inv hS
  have hlen := List.Forall₂.length_eq hF
  simp only [List.length_drop] at hlen
  refine ⟨hlen, ?_⟩
  intro k hk
  have h1 : (a.drop i).get? k = a.get? (i + k) := List.get?_drop a i k
  have h2 : (b.drop j).get? k = b.get? (j + k) := List.get?_drop b j k
  have hk1 : k < (a.drop i).length := by
    simp only [List.length_drop]; omega
  have hk2 : k < (b.drop j).length := by
    simp only [List.length_drop]; omega
  rw [List.forall₂_iff_get] at hF
  have := hF.2 k hk1 hk2
  refine ⟨(a.drop i).get ⟨k, hk1⟩, (b.drop j).get ⟨k, hk2⟩, ?_, ?_, this⟩
  · rw [← h1, List.get?_eq_get hk1]
  · rw [← h2, List.get?_eq_get hk2]

/-! ### Registry-state preservation -/


theorem dlPairs_preserves {recur : DiffFn} {a b : List JVal} {subpath : String}
    (hp : PreservesSt recur) :
    ∀ (n i j : Nat) (ps : PredMap) (es : List Entry) (ps2 : PredMap), StEq ps →
      dlPairs recur a b subpath i j n ps = .ok (es, ps2) → StEq ps2 := by
  intro n
  induction n with
  | zero =>
    intro i j ps es ps2 hst h
    simp only [dlPairs] at h
    cases h
    exact hst
  | succ n ih =>
    intro i j ps es ps2 hst h
    simp only [dlPairs] at h
    match hga : a.get? i, hgb : b.get? j with
    | some aval, some bval =>
      rw [hga, hgb] at h
      simp only [] at h
      by_cases hat : is_atomic aval
      · rw [if_pos hat] at h
        exact ih (i + 1) (j + 1) ps es ps2 hst h
      · rw [if_neg hat] at h
        simp only [Bind.bind, Except.bind] at h
        match hr : recur aval bval subpath ps with
        | .error e => rw [hr] at h; cases h
        | .ok (cd, ps1) =>
          rw [hr] at h
          have hst1 := hp aval bval subpath ps cd ps1 hst hr
          simp only [] at h
          match hrec : dlPairs recur a b subpath (i + 1) (j + 1) n ps1 with
          | .error e => rw [hrec] at h; cases h
          | .ok (rest, psr) =>
            rw [hrec] at h
            simp only [] at h
            have hst2 := ih (i + 1) (j + 1) ps1 rest psr hst1 hrec
            by_cases hemp : cd.isEmpty = true
            · rw [if_pos hemp] at h
              cases h
              exact hst2
            · rw [if_neg hemp] at h
              cases h
              exact hst2
    | some _, none => rw [hga, hgb] at h; cases h
    | none, some _ => rw [hga, hgb] at h; cases h
    | none, none => rw [hga, hgb] at h; cases h

theorem dlLoop_preserves {recur : DiffFn} {a b : List JVal} {subpath : String}
    (hp : PreservesSt recur) :
    ∀ (sd : List (SEnt JVal)) (i j : Nat) (ps : PredMap) (es : List Entry)
      (ps2 : PredMap), StEq ps →
      dlLoop recur a b subpath sd i j ps = .ok (es, ps2) → StEq ps2 := by
  intro sd
  induction sd with
  | nil =>
    intro i j ps es ps2 hst h
    simp only [dlLoop] at h
    split at h
    · exact dlPairs_preserves hp _ i j ps es ps2 hst h
    · cases h
  | cons e rest ih =>
    intro i j ps es ps2 hst h
    simp only [dlLoop, Bind.bind, Except.bind] at h
    match h1 : dlPairs recur a b subpath i j (e.key - i) ps with
    | .error e2 => rw [h1] at h; cases h
    | .ok (patches, ps1) =>
      rw [h1] at h
      have hst1 := dlPairs_preserves hp _ i j ps patches ps1 hst h1
      simp only [] at h
      match h2 : dlLoop recur a b subpath rest (i + (e.key - i) + (consumedS e).1)
          (j + (e.key - i) + (consumedS e).2) ps1 with
      | .error e2 => rw [h2] at h; cases h
      | .ok (es2, psr) =>
        rw [h2] at h
        cases h
        exact ih _ _ ps1 es2 psr hst1 h2

theorem ddMains_preserves {recur : DiffFn} {a b : List (String × JVal)}
    {path : String} (hp : PreservesSt recur) :
    ∀ (ks : List String) (ps : PredMap) (es : List Entry) (ps2 : PredMap), StEq ps →
      ddMains recur a b path ks ps = .ok (es, ps2) → StEq ps2 := by
  intro ks
  induction ks with
  | nil =>
    intro ps es ps2 hst h
    simp only [ddMains] at h
    cases h
    exact hst
  | cons k ks ih =>
    intro ps es ps2 hst h
    simp only [ddMains] at h
    match hga : lookupKv a k, hgb : lookupKv b k with
    | some avalue, some bvalue =>
      rw [hga, hgb] at h
      simp only [] at h
      by_cases hrec : (typeSame avalue bvalue && !is_atomic avalue) = true
      · rw [if_pos hrec] at h
        simp only [Bind.bind, Except.bind] at h
        match hr : recur avalue bvalue (path ++ "/" ++ k) ps with
        | .error e => rw [hr] at h; cases h
        | .ok (dd, ps1) =>
          rw [hr] at h
          have hst1 := hp avalue bvalue _ ps dd ps1 hst hr
          simp only [] at h
          match h2 : ddMains recur a b path ks ps1 with
          | .error e => rw [h2] at h; cases h
          | .ok (rest, psr) =>
            rw [h2] at h
            simp only [] at h
            have hst2 := ih ps1 rest psr hst1 h2
            by_cases hemp : dd.isEmpty = true
            · rw [if_pos hemp] at h
              cases h
              exact hst2
            · rw [if_neg hemp] at h
              cases h
              exact hst2
      · rw [if_neg hrec] at h
        by_cases hcon : pmContains ps path = true
        · rw [if_pos hcon] at h
          cases h
        · rw [if_neg hcon] at h
          simp only [Bind.bind, Except.bind] at h
          match h2 : ddMains recur a b path ks ps with
          | .error e => rw [h2] at h; cases h
          | .ok (rest, psr) =>
            rw [h2] at h
            simp only [] at h
            have hst2 := ih ps rest psr hst h2
            by_cases heq : avalue = bvalue
            · rw [if_pos heq] at h
              cases h
              exact hst2
            · rw [if_neg heq] at h
              cases h
              exact hst2
    | some _, none => rw [hga, hgb] at h; cases h
    | none, some _ => rw [hga, hgb] at h; cases h
    | none, none => rw [hga, hgb] at h; cases h

theorem diffListsC_preserves {recur : DiffFn} (hp : PreservesSt recur)
    (a b : List JVal) (path : String) (ps : PredMap)
    (osd : Option (List (SEnt JVal))) (es : List Entry) (ps2 : PredMap)
    (hst : StEq ps) (h : diffListsC recur a b path ps osd = .ok (es, ps2)) :
    StEq ps2 := by
  unfold diffListsC at h
  obtain ⟨hc1, hc2⟩ := pmGet_of_StEq path hst
  obtain ⟨compares, ps1, hpm⟩ : ∃ cs ps1, pmGet ps path = (cs, ps1) := ⟨_, _, rfl⟩
  rw [hpm] at h hc1 hc2
  simp only [] at h hc1 hc2
  subst hc1
  rw [if_neg (by simp)] at h
  simp only [Bind.bind, Except.bind] at h
  match hsd : osd with
  | some sd =>
    simp only [] at h
    match h2 : dlLoop recur a b (path ++ "/*") sd 0 0 ps1 with
    | .error e => rw [h2] at h; cases h
    | .ok (es2, psr) =>
      rw [h2] at h
      simp only [] at h
      have := dlLoop_preserves hp sd 0 0 _ es2 psr hc2 h2
      by_cases hord : seqKeysOrdered es2 = true
      · rw [if_pos hord] at h
        cases h
        exact this
      · rw [if_neg hord] at h
        cases h
  | none =>
    simp only [] at h
    match hq : seqDiffF defaultPred (seqFuel a b) a b 0 with
    | none => rw [hq] at h; cases h
    | some sd =>
      rw [hq] at h
      simp only [] at h
      match h2 : dlLoop recur a b (path ++ "/*") sd 0 0 ps1 with
      | .error e => rw [h2] at h; cases h
      | .ok (es2, psr) =>
        rw [h2] at h
        simp only [] at h
        have := dlLoop_preserves hp sd 0 0 _ es2 psr hc2 h2
        by_cases hord : seqKeysOrdered es2 = true
        · rw [if_pos hord] at h
          cases h
          exact this
        · rw [if_neg hord] at h
          cases h

theorem diffDictsC_preserves {recur : DiffFn} (hp : PreservesSt recur)
    (a b : List (String × JVal)) (path : String) (ps : PredMap)
    (es : List Entry) (ps2 : PredMap)
    (hst : StEq ps) (h : diffDictsC recur a b path ps = .ok (es, ps2)) :
    StEq ps2 := by
  unfold diffDictsC at h
  simp only [Bind.bind, Except.bind] at h
  match h1 : ddMains recur a b path
      (sortStr ((setKeys a).filter fun k => (setKeys b).contains k)) ps with
  | .error e => rw [h1] at h; cases h
  | .ok (mains, ps1) =>
    rw [h1] at h
    have hst1 := ddMains_preserves hp _ ps mains ps1 hst h1
    simp only [] at h
    match h2 : ddAdds b (sortStr ((setKeys b).filter fun k => !(setKeys a).contains k)) with
    | .error e => rw [h2] at h; cases h
    | .ok adds =>
      rw [h2] at h
      simp only [] at h
      unfold mappingValidated at h
      split at h
      · cases h
        exact hst1
      · cases h

theorem diffF_preserves : ∀ f : Nat, PreservesSt (diffF f) := by
  intro f
  induction f with
  | zero =>
    intro v w path ps d ps2 hst h
    cases h
  | succ f ih =>
    intro v w path ps d ps2 hst h
    match v, w with
    | .list xs, .list ys =>
      exact diffListsC_preserves ih xs ys path ps none d ps2 hst h
    | .obj xs, .obj ys =>
      exact diffDictsC_preserves ih xs ys path ps d ps2 hst h
    | .str x, .str y =>
      simp only [diffF] at h
      match h2 : diff_strings x y with
      | .ok d2 => rw [h2] at h; cases h; exact hst
      | .error e => rw [h2] at h; cases h
    | .str _, .atom _ => cases h
    | .str _, .list _ => cases h
    | .str _, .obj _ => cases h
    | .atom _, _ => cases h
    | .list _, .str _ => cases h
    | .list _, .atom _ => cases h
    | .list _, .obj _ => cases h
    | .obj _, .str _ => cases h
    | .obj _, .atom _ => cases h
    | .obj _, .list _ => cases h

/-! ### The completeness asserts of `diff_lists` never fail (C2) -/


theorem dlPairs_no_assert {recur : DiffFn} {a b : List JVal} {subpath : String}
    (hr : NoAssert recur) :
    ∀ (n i j : Nat) (ps : PredMap),
      dlPairs recur a b subpath i j n ps ≠ .error .assertFail := by
  intro n
  induction n with
  | zero =>
    intro i j ps h
    simp [dlPairs] at h
  | succ n ih =>
    intro i j ps h
    simp only [dlPairs] at h
    match hga : a.get? i, hgb : b.get? j with
    | some aval, some bval =>
      rw [hga, hgb] at h
      simp only [] at h
      by_cases hat : is_atomic aval
      · rw [if_pos hat] at h
        exact ih (i + 1) (j + 1) ps h
      · rw [if_neg hat] at h
        simp only [Bind.bind, Except.bind] at h
        match hrc : recur aval bval subpath ps with
        | .error e =>
          rw [hrc] at h
          cases h
          exact hr aval bval subpath ps hrc
        | .ok (cd, ps1) =>
          rw [hrc] at h
          simp only [] at h
          match hrec : dlPairs recur a b subpath (i + 1) (j + 1) n ps1 with
          | .error e =>
            rw [hrec] at h
            cases h
            exact ih (i + 1) (j + 1) ps1 hrec
          | .ok (rest, psr) =>
            rw [hrec] at h
            simp only [] at h
            by_cases hemp : cd.isEmpty = true
            · rw [if_pos hemp] at h; cases h
            · rw [if_neg hemp] at h; cases h
    | some _, none => rw [hga, hgb] at h; cases h
    | none, some _ => rw [hga, hgb] at h; cases h
    | none, none => rw [hga, hgb] at h; cases h

theorem dlLoop_no_assert {recur : DiffFn} {a b : List JVal} {subpath : String}
    {cmp : JVal → JVal → Bool} (hr : NoAssert recur) :
    ∀ (sd : List (SEnt JVal)) (i j : Nat) (ps : PredMap),
      i ≤ a.length → j ≤ b.length → Script cmp i (a.drop i) (b.drop j) sd →
      dlLoop recur a b subpath sd i j ps ≠ .error .assertFail := by
  intro sd
  induction sd with
  | nil =>
    intro i j ps hi hj hS h
    obtain ⟨hlen, _⟩ := script_done_inv hi hj hS
    simp only [dlLoop] at h
    rw [if_pos ⟨hi, hj, hlen⟩] at h
    exact dlPairs_no_assert hr _ i j ps h
  | cons e rest ih =>
    intro i j ps hi hj hS h
    obtain ⟨_, hb1, hb2, hS2, _⟩ := script_step hi hj hS
    simp only [dlLoop, Bind.bind, Except.bind] at h
    match h1 : dlPairs recur a b subpath i j (e.key - i) ps with
    | .error e2 =>
      rw [h1] at h
      cases h
      exact dlPairs_no_assert hr _ i j ps h1
    | .ok (patches, ps1) =>
      rw [h1] at h
      simp only [] at h
      match h2 : dlLoop recur a b subpath rest (i + (e.key - i) + (consumedS e).1)
          (j + (e.key - i) + (consumedS e).2) ps1 with
      | .error e2 =>
        rw [h2] at h
        cases h
        exact ih _ _ ps1 hb1 hb2 hS2 h2
      | .ok (es2, psr) =>
        rw [h2] at h
        cases h

theorem diffListsC_no_assert {recur : DiffFn} (hr : NoAssert recur)
    (a b : List JVal) (path : String) (ps : PredMap) :
    diffListsC recur a b path ps none ≠ .error .assertFail := by
  intro h
  unfold diffListsC at h
  obtain ⟨compares, ps1, hpm⟩ : ∃ cs ps1, pmGet ps path = (cs, ps1) := ⟨_, _, rfl⟩
  rw [hpm] at h
  simp only [] at h
  by_cases hlen : compares.length > 1
  · rw [if_pos hlen] at h
    rw [if_neg (by simp)] at h
    unfold diffSequenceMultilevelC at h
    cases h
  · rw [if_neg hlen] at h
    simp only [Bind.bind, Except.bind] at h
    match hcs : compares with
    | [] => simp only [] at h; cases h
    | c :: cs =>
      simp only [] at h
      match hq : seqDiffF c (seqFuel a b) a b 0 with
      | none => rw [hq] at h; cases h
      | some sd =>
        rw [hq] at h
        simp only [] at h
        have hS : Script c 0 (a.drop 0) (b.drop 0) sd := by
          rw [List.drop_zero, List.drop_zero]
          exact seqDiffF_script _ a b 0 sd hq
        match h2 : dlLoop recur a b (path ++ "/*") sd 0 0 ps1 with
        | .error e2 =>
          rw [h2] at h
          cases h
          exact dlLoop_no_assert hr sd 0 0 ps1 (Nat.zero_le _) (Nat.zero_le _) hS h2
        | .ok (es2, psr) =>
          rw [h2] at h
          simp only [] at h
          by_cases hord : seqKeysOrdered es2 = true
          · rw [if_pos hord] at h; cases h
          · rw [if_neg hord] at h; cases h

theorem ddAdds_no_assert (b : List (String × JVal)) :
    ∀ ks : List String, ddAdds b ks ≠ .error .assertFail := by
  intro ks
  induction ks with
  | nil => intro h; simp [ddAdds] at h
  | cons k ks ih =>
    intro h
    simp only [ddAdds] at h
    match hgb : lookupKv b k with
    | some v =>
      rw [hgb] at h
      simp only [Bind.bind, Except.bind] at h
      match h2 : ddAdds b ks with
      | .error e => rw [h2] at h; cases h; exact ih h2
      | .ok rest => rw [h2] at h; cases h
    | none => rw [hgb] at h; cases h

theorem ddMains_no_assert {recur : DiffFn} {a b : List (String × JVal)}
    {path : String} (hr : NoAssert recur) :
    ∀ (ks : List String) (ps : PredMap),
      ddMains recur a b path ks ps ≠ .error .assertFail := by
  intro ks
  induction ks with
  | nil => intro ps h; simp [ddMains] at h
  | cons k ks ih =>
    intro ps h
    simp only [ddMains] at h
    match hga : lookupKv a k, hgb : lookupKv b k with
    | some avalue, some bvalue =>
      rw [hga, hgb] at h
      simp only [] at h
      by_cases hrec : (typeSame avalue bvalue && !is_atomic avalue) = true
      · rw [if_pos hrec] at h
        simp only [Bind.bind, Except.bind] at h
        match hrc : recur avalue bvalue (path ++ "/" ++ k) ps with
        | .error e =>
          rw [hrc] at h
          cases h
          exact hr avalue bvalue _ ps hrc
        | .ok (dd, ps1) =>
          rw [hrc] at h
          simp only [] at h
          match h2 : ddMains recur a b path ks ps1 with
          | .error e => rw [h2] at h; cases h; exact ih ps1 h2
          | .ok (rest, psr) =>
            rw [h2] at h
            simp only [] at h
            by_cases hemp : dd.isEmpty = true
            · rw [if_pos hemp] at h; cases h
            · rw [if_neg hemp] at h; cases h
      · rw [if_neg hrec] at h
        by_cases hcon : pmContains ps path = true
        · rw [if_pos hcon] at h; cases h
        · rw [if_neg hcon] at h
          simp only [Bind.bind, Except.bind] at h
          match h2 : ddMains recur a b path ks ps with
          | .error e => rw [h2] at h; cases h; exact ih ps h2
          | .ok (rest, psr) =>
            rw [h2] at h
            simp only [] at h
            by_cases heq : avalue = bvalue
            · rw [if_pos heq] at h; cases h
            · rw [if_neg heq] at h; cases h
    | some _, none => rw [hga, hgb] at h; cases h
    | none, some _ => rw [hga, hgb] at h; cases h
    | none, none => rw [hga, hgb] at h; cases h

theorem diffDictsC_no_assert {recur : DiffFn} (hr : NoAssert recur)
    (a b : List (String × JVal)) (path : String) (ps : PredMap) :
    diffDictsC recur a b path ps ≠ .error .assertFail := by
  intro h
  unfold diffDictsC at h
  simp only [Bind.bind, Except.bind] at h
  match h1 : ddMains recur a b path
      (sortStr ((setKeys a).filter fun k => (setKeys b).contains k)) ps with
  | .error e =>
    rw [h1] at h
    cases h
    exact ddMains_no_assert hr _ ps h1
  | .ok (mains, ps1) =>
    rw [h1] at h
    simp only [] at h
    match h2 : ddAdds b (sortStr ((setKeys b).filter fun k => !(setKeys a).contains k)) with
    | .error e =>
      rw [h2] at h
      cases h
      exact ddAdds_no_assert b _ h2
    | .ok adds =>
      rw [h2] at h
      simp only [] at h
      unfold mappingValidated at h
      split at h
      · cases h
      · cases h

theorem diff_strings_no_assert (x y : String) :
    diff_strings x y ≠ .error .assertFail := by
  intro h
  unfold diff_strings at h
  match hq : seqDiffF (fun c d => c == d) (seqFuel x.data y.data) x.data y.data 0 with
  | some sd => rw [hq] at h; cases h
  | none => rw [hq] at h; cases h

theorem diffF_no_assert : ∀ f : Nat, NoAssert (diffF f) := by
  intro f
  induction f with
  | zero => intro v w path ps h; cases h
  | succ f ih =>
    intro v w path ps h
    match v, w with
    | .list xs, .list ys => exact diffListsC_no_assert ih xs ys path ps h
    | .obj xs, .obj ys => exact diffDictsC_no_assert ih xs ys path ps h
    | .str x, .str y =>
      simp only [diffF] at h
      match h2 : diff_strings x y with
      | .ok d2 => rw [h2] at h; cases h
      | .error e => rw [h2] at h; cases h; exact diff_strings_no_assert x y h2
    | .str _, .atom _ => cases h
    | .str _, .list _ => cases h
    | .str _, .obj _ => cases h
    | .atom _, _ => cases h
    | .list _, .str _ => cases h
    | .list _, .atom _ => cases h
    | .list _, .obj _ => cases h
    | .obj _, .str _ => cases h
    | .obj _, .atom _ => cases h
    | .obj _, .list _ => cases h

/-- C2: for all lists `a`, `b`, the entry loop of `diff_lists(a, b)`
accounts for every index of `a` and `b` exactly once: the lockstep
cursors `i`, `j` reach `len(a)`, `len(b)` when the loop finishes, so
none of the assertions of `diff_lists` (`generic.py` lines 117–118 and
139–140) ever fails — whatever predicates are registered and whatever
nested diffs are taken, the call never surfaces an assertion failure. -/
theorem diff_lists_asserts_hold (f : Nat) (a b : List JVal) (path : String)
    (ps : PredMap) : diff_lists f a b path ps none ≠ .error .assertFail :=
  diffListsC_no_assert (diffF_no_assert f) a b path ps

/-- C2 instance at a concrete input. -/
theorem diff_lists_asserts_hold_witness :
    diff_lists 3 [.atom 1, .atom 2] [.atom 2, .atom 3] "" [] none
      ≠ .error .assertFail :=
  diff_lists_asserts_hold 3 [.atom 1, .atom 2] [.atom 2, .atom 3] "" []

/-! ### `UnsupportedValueKind` is raised exactly at the dispatch (C3) -/


theorem kindMatch_self_of_nonatomic {v : JVal} (h : is_atomic v = false) :
    kindMatch v v = true := by
  cases v <;> simp [is_atomic, kindMatch] at h ⊢

theorem kindMatch_of_typeSame {v w : JVal} (h1 : typeSame v w = true)
    (h2 : is_atomic v = false) : kindMatch v w = true := by
  cases v <;> cases w <;> simp [typeSame, is_atomic, kindMatch] at h1 h2 ⊢

theorem dlPairs_no_unsup {recur : DiffFn} {a b : List JVal} {subpath : String}
    (hu : NoUnsupT recur) (hp : PreservesSt recur) :
    ∀ (n i j : Nat) (ps : PredMap), StEq ps →
      (∀ k, k < n → ∃ x, a.get? (i + k) = some x ∧ b.get? (j + k) = some x) →
      dlPairs recur a b subpath i j n ps ≠ .error .unsupportedValueKind := by
  intro n
  induction n with
  | zero => intro i j ps hst hwin h; simp [dlPairs] at h
  | succ n ih =>
    intro i j ps hst hwin h
    simp only [dlPairs] at h
    match hga : a.get? i, hgb : b.get? j with
    | some aval, some bval =>
      rw [hga, hgb] at h
      simp only [] at h
      have hwin2 : ∀ k, k < n → ∃ x, a.get? (i + 1 + k) = some x ∧
          b.get? (j + 1 + k) = some x := by
        intro k hk
        obtain ⟨x, h1, h2⟩ := hwin (k + 1) (by omega)
        exact ⟨x, by rw [show i + 1 + k = i + (k + 1) by omega]; exact h1,
          by rw [show j + 1 + k = j + (k + 1) by omega]; exact h2⟩
      by_cases hat : is_atomic aval
      · rw [if_pos hat] at h
        exact ih (i + 1) (j + 1) ps hst hwin2 h
      · rw [if_neg hat] at h
        have heqv : aval = bval := by
          obtain ⟨x, h1, h2⟩ := hwin 0 (by omega)
          rw [Nat.add_zero] at h1 h2
          rw [hga] at h1
          rw [hgb] at h2
          cases h1
          cases h2
          rfl
        have hkm : kindMatch aval bval = true := by
          rw [← heqv]
          exact kindMatch_self_of_nonatomic (by
            rw [Bool.not_eq_true] at hat
            exact hat)
        simp only [Bind.bind, Except.bind] at h
        match hrc : recur aval bval subpath ps with
        | .error e =>
          rw [hrc] at h
          cases h
          exact hu aval bval subpath ps hst hkm hrc
        | .ok (cd, ps1) =>
          rw [hrc] at h
          simp only [] at h
          have hst1 := hp aval bval subpath ps cd ps1 hst hrc
          match hrec : dlPairs recur a b subpath (i + 1) (j + 1) n ps1 with
          | .error e =>
            rw [hrec] at h
            cases h
            exact ih (i + 1) (j + 1) ps1 hst1 hwin2 hrec
          | .ok (rest, psr) =>
            rw [hrec] at h
            simp only [] at h
            by_cases hemp : cd.isEmpty = true
            · rw [if_pos hemp] at h; cases h
            · rw [if_neg hemp] at h; cases h
    | some _, none => rw [hga, hgb] at h; cases h
    | none, some _ => rw [hga, hgb] at h; cases h
    | none, none => rw [hga, hgb] at h; cases h

theorem dlLoop_no_unsup {recur : DiffFn} {a b : List JVal} {subpath : String}
    (hu : NoUnsupT recur) (hp : PreservesSt recur) :
    ∀ (sd : List (SEnt JVal)) (i j : Nat) (ps : PredMap), StEq ps →
      i ≤ a.length → j ≤ b.length →
      Script defaultPred i (a.drop i) (b.drop j) sd →
      dlLoop recur a b subpath sd i j ps ≠ .error .unsupportedValueKind := by
  intro sd
  induction sd with
  | nil =>
    intro i j ps hst hi hj hS h
    obtain ⟨hlen, hwin⟩ := script_done_inv hi hj hS
    simp only [dlLoop] at h
    rw [if_pos ⟨hi, hj, hlen⟩] at h
    refine dlPairs_no_unsup hu hp _ i j ps hst ?_ h
    intro k hk
    obtain ⟨x, y, h1, h2, h3⟩ := hwin k hk
    rw [defaultPred_eq_true_iff] at h3
    exact ⟨x, h1, by rw [← h3] at h2; exact h2⟩
  | cons e rest ih =>
    intro i j ps hst hi hj hS h
    obtain ⟨hwin, hb1, hb2, hS2, _⟩ := script_step hi hj hS
    simp only [dlLoop, Bind.bind, Except.bind] at h
    match h1 : dlPairs recur a b subpath i j (e.key - i) ps with
    | .error e2 =>
      rw [h1] at h
      cases h
      refine dlPairs_no_unsup hu hp _ i j ps hst ?_ h1
      intro k hk
      obtain ⟨x, y, hh1, hh2, hh3⟩ := hwin k hk
      rw [defaultPred_eq_true_iff] at hh3
      exact ⟨x, hh1, by rw [← hh3] at hh2; exact hh2⟩
    | .ok (patches, ps1) =>
      rw [h1] at h
      simp only [] at h
      have hst1 := dlPairs_preserves hp _ i j ps patches ps1 hst h1
      match h2 : dlLoop recur a b subpath rest (i + (e.key - i) + (consumedS e).1)
          (j + (e.key - i) + (consumedS e).2) ps1 with
      | .error e2 =>
        rw [h2] at h
        cases h
        exact ih _ _ ps1 hst1 hb1 hb2 hS2 h2
      | .ok (es2, psr) =>
        rw [h2] at h
        cases h

theorem diffListsC_no_unsup {recur : DiffFn} (hu : NoUnsupT recur)
    (hp : PreservesSt recur) (a b : List JVal) (path : String) (ps : PredMap)
    (hst : StEq ps) :
    diffListsC recur a b path ps none ≠ .error .unsupportedValueKind := by
  intro h
  unfold diffListsC at h
  obtain ⟨hc1, hc2⟩ := pmGet_of_StEq path hst
  obtain ⟨compares, ps1, hpm⟩ : ∃ cs ps1, pmGet ps path = (cs, ps1) := ⟨_, _, rfl⟩
  rw [hpm] at h hc1 hc2
  simp only [] at h hc1 hc2
  subst hc1
  rw [if_neg (by simp)] at h
  simp only [Bind.bind, Except.bind] at h
  match hq : seqDiffF defaultPred (seqFuel a b) a b 0 with
  | none => rw [hq] at h; cases h
  | some sd =>
    rw [hq] at h
    simp only [] at h
    have hS : Script defaultPred 0 (a.drop 0) (b.drop 0) sd := by
      rw [List.drop_zero, List.drop_zero]
      exact seqDiffF_script _ a b 0 sd hq
    match h2 : dlLoop recur a b (path ++ "/*") sd 0 0 ps1 with
    | .error e2 =>
      rw [h2] at h
      cases h
      exact dlLoop_no_unsup hu hp sd 0 0 ps1 hc2 (Nat.zero_le _) (Nat.zero_le _) hS h2
    | .ok (es2, psr) =>
      rw [h2] at h
      simp only [] at h
      by_cases hord : seqKeysOrdered es2 = true
      · rw [if_pos hord] at h; cases h
      · rw [if_neg hord] at h; cases h

theorem ddAdds_no_unsup (b : List (String × JVal)) :
    ∀ ks : List String, ddAdds b ks ≠ .error .unsupportedValueKind := by
  intro ks
  induction ks with
  | nil => intro h; simp [ddAdds] at h
  | cons k ks ih =>
    intro h
    simp only [ddAdds] at h
    match hgb : lookupKv b k with
    | some v =>
      rw [hgb] at h
      simp only [Bind.bind, Except.bind] at h
      match h2 : ddAdds b ks with
      | .error e => rw [h2] at h; cases h; exact ih h2
      | .ok rest => rw [h2] at h; cases h
    | none => rw [hgb] at h; cases h

theorem ddMains_no_unsup {recur : DiffFn} {a b : List (String × JVal)}
    {path : String} (hu : NoUnsupT recur) (hp : PreservesSt recur) :
    ∀ (ks : List String) (ps : PredMap), StEq ps →
      ddMains recur a b path ks ps ≠ .error .unsupportedValueKind := by
  intro ks
  induction ks with
  | nil => intro ps hst h; simp [ddMains] at h
  | cons k ks ih =>
    intro ps hst h
    simp only [ddMains] at h
    match hga : lookupKv a k, hgb : lookupKv b k with
    | some avalue, some bvalue =>
      rw [hga, hgb] at h
      simp only [] at h
      by_cases hrec : (typeSame avalue bvalue && !is_atomic avalue) = true
      · rw [if_pos hrec] at h
        rw [Bool.and_eq_true] at hrec
        have hkm : kindMatch avalue bvalue = true :=
          kindMatch_of_typeSame hrec.1 (by
            have := hrec.2
            rw [Bool.not_eq_true'] at this
            exact this)
        simp only [Bind.bind, Except.bind] at h
        match hrc : recur avalue bvalue (path ++ "/" ++ k) ps with
        | .error e =>
          rw [hrc] at h
          cases h
          exact hu avalue bvalue _ ps hst hkm hrc
        | .ok (dd, ps1) =>
          rw [hrc] at h
          simp only [] at h
          have hst1 := hp avalue bvalue _ ps dd ps1 hst hrc
          match h2 : ddMains recur a b path ks ps1 with
          | .error e => rw [h2] at h; cases h; exact ih ps1 hst1 h2
          | .ok (rest, psr) =>
            rw [h2] at h
            simp only [] at h
            by_cases hemp : dd.isEmpty = true
            · rw [if_pos hemp] at h; cases h
            · rw [if_neg hemp] at h; cases h
      · rw [if_neg hrec] at h
        by_cases hcon : pmContains ps path = true
        · rw [if_pos hcon] at h; cases h
        · rw [if_neg hcon] at h
          simp only [Bind.bind, Except.bind] at h
          match h2 : ddMains recur a b path ks ps with
          | .error e => rw [h2] at h; cases h; exact ih ps hst h2
          | .ok (rest, psr) =>
            rw [h2] at h
            simp only [] at h
            by_cases heq : avalue = bvalue
            · rw [if_pos heq] at h; cases h
            · rw [if_neg heq] at h; cases h
    | some _, none => rw [hga, hgb] at h; cases h
    | none, some _ => rw [hga, hgb] at h; cases h
    | none, none => rw [hga, hgb] at h; cases h

theorem diffDictsC_no_unsup {recur : DiffFn} (hu : NoUnsupT recur)
    (hp : PreservesSt recur) (a b : List (String × JVal)) (path : String)
    (ps : PredMap) (hst : StEq ps) :
    diffDictsC recur a b path ps ≠ .error .unsupportedValueKind := by
  intro h
  unfold diffDictsC at h
  simp only [Bind.bind, Except.bind] at h
  match h1 : ddMains recur a b path
      (sortStr ((setKeys a).filter fun k => (setKeys b).contains k)) ps with
  | .error e =>
    rw [h1] at h
    cases h
    exact ddMains_no_unsup hu hp _ ps hst h1
  | .ok (mains, ps1) =>
    rw [h1] at h
    simp only [] at h
    match h2 : ddAdds b (sortStr ((setKeys b).filter fun k => !(setKeys a).contains k)) with
    | .error e =>
      rw [h2] at h
      cases h
      exact ddAdds_no_unsup b _ h2
    | .ok adds =>
      rw [h2] at h
      simp only [] at h
      unfold mappingValidated at h
      split at h
      · cases h
      · cases h

theorem diffF_no_unsup : ∀ f : Nat, NoUnsupT (diffF f) := by
  intro f
  induction f with
  | zero => intro v w path ps hst hkm h; cases h
  | succ f ih =>
    intro v w path ps hst hkm h
    have hpres := diffF_preserves f
    match v, w with
    | .list xs, .list ys => exact diffListsC_no_unsup ih hpres xs ys path ps hst h
    | .obj xs, .obj ys => exact diffDictsC_no_unsup ih hpres xs ys path ps hst h
    | .str x, .str y =>
      simp only [diffF] at h
      match h2 : diff_strings x y with
      | .ok d2 => rw [h2] at h; cases h
      | .error e =>
        rw [h2] at h
        cases h
        unfold diff_strings at h2
        match hq : seqDiffF (fun c d => c == d) (seqFuel x.data y.data) x.data y.data 0 with
        | some sd => rw [hq] at h2; cases h2
        | none => rw [hq] at h2; cases h2
    | .str _, .atom _ => simp [kindMatch] at hkm
    | .str _, .list _ => simp [kindMatch] at hkm
    | .str _, .obj _ => simp [kindMatch] at hkm
    | .atom _, _ => simp [kindMatch] at hkm
    | .list _, .str _ => simp [kindMatch] at hkm
    | .list _, .atom _ => simp [kindMatch] at hkm
    | .list _, .obj _ => simp [kindMatch] at hkm
    | .obj _, .str _ => simp [kindMatch] at hkm
    | .obj _, .atom _ => simp [kindMatch] at hkm
    | .obj _, .list _ => simp [kindMatch] at hkm

/-- C3: with default-state registries, `diff(a, b)` fails with the
unsupported-value-kind error exactly when `a` and `b` are not both
sequences, not both mappings and not both text: mismatched kinds raise
it at the dispatch with no partial result (the `Except` carries nothing
else), while both-list, both-dict and both-string pairs never surface
it, from the top dispatch or from any recursive call. -/
theorem diff_unsupported_value_kind (f : Nat) (a b : JVal) (path : String)
    (ps : PredMap) (hst : StEq ps) :
    (kindMatch a b = false →
      diffF (f + 1) a b path ps = .error .unsupportedValueKind) ∧
    (kindMatch a b = true →
      diffF (f + 1) a b path ps ≠ .error .unsupportedValueKind) := by
  constructor
  · intro hkm
    cases a <;> cases b <;> first
      | rfl
      | simp [kindMatch] at hkm
  · intro hkm
    exact diffF_no_unsup (f + 1) a b path ps hst hkm

/-- C3 witness: an atom against a list raises the unsupported error. -/
theorem diff_unsupported_value_kind_witness :
    StEq [] ∧ diffF 1 (.atom 1) (.list []) "" [] = .error .unsupportedValueKind := by
  have hst : StEq [] := fun p cs h => absurd h (List.not_mem_nil _)
  exact ⟨hst, (diff_unsupported_value_kind 0 (.atom 1) (.list []) "" [] hst).1 rfl⟩

/-! ### Round-trip toolkit: replaying list diffs -/

theorem patchList_shift (x : JVal) (xs : List JVal) (es : List Entry) (pos : Nat)
    (hk : ∀ e ∈ es, ∀ m, e.key = .i m → pos + 1 ≤ m) :
    patchList (x :: xs) es pos = (patchList xs es (pos + 1)).map (fun r => x :: r) := by
  cases es with
  | nil => simp [patchList]
  | cons e d =>
    cases e with
    | add k v =>
      cases k with
      | s s0 => simp [patchList]
      | i k =>
        have hp1 : pos + 1 ≤ k := hk _ (List.mem_cons_self _ _) k rfl
        have hkp : k - pos = (k - (pos + 1)) + 1 := by omega
        simp only [patchList, hkp]
        by_cases hc : k - (pos + 1) ≤ xs.length
        · rw [if_pos (by simp [List.length_cons]; omega),
            if_pos (by simp; omega)]
          rw [List.take_succ_cons, List.drop_succ_cons]
          cases hbase : patchList (xs.drop (k - (pos + 1))) d k <;> simp [hbase]
        · rw [if_neg (by simp [List.length_cons]; omega),
            if_neg (by simp; omega)]
          simp
    | remove k =>
      cases k with
      | s s0 => simp [patchList]
      | i k =>
        have hp1 : pos + 1 ≤ k := hk _ (List.mem_cons_self _ _) k rfl
        have hkp : k - pos = (k - (pos + 1)) + 1 := by omega
        simp only [patchList, hkp]
        by_cases hc : k - (pos + 1) < xs.length
        · rw [if_pos (by simp [List.length_cons]; omega),
            if_pos (by simp; omega)]
          rw [List.take_succ_cons, List.drop_succ_cons]
          cases hbase : patchList (xs.drop (k - (pos + 1) + 1)) d (k + 1) <;> simp [hbase]
        · rw [if_neg (by simp [List.length_cons]; omega),
            if_neg (by simp; omega)]
          simp
    | replace k v =>
      cases k with
      | s s0 => simp [patchList]
      | i k =>
        have hp1 : pos + 1 ≤ k := hk _ (List.mem_cons_self _ _) k rfl
        have hkp : k - pos = (k - (pos + 1)) + 1 := by omega
        simp only [patchList, hkp]
        by_cases hc : k - (pos + 1) < xs.length
        · rw [if_pos (by simp [List.length_cons]; omega),
            if_pos (by simp; omega)]
          rw [List.take_succ_cons, List.drop_succ_cons]
          cases hbase : patchList (xs.drop (k - (pos + 1) + 1)) d (k + 1) <;> simp [hbase]
        · rw [if_neg (by simp [List.length_cons]; omega),
            if_neg (by simp; omega)]
          simp
    | patch k sub =>
      cases k with
      | s s0 => simp [patchList]
      | i k =>
        have hp1 : pos + 1 ≤ k := hk _ (List.mem_cons_self _ _) k rfl
        have hkp : k - pos = (k - (pos + 1)) + 1 := by omega
        simp only [patchList, hkp]
        by_cases hc : k - (pos + 1) < xs.length
        · rw [dif_pos (⟨by omega, by rw [List.length_cons]; omega⟩ :
              pos ≤ k ∧ k - (pos + 1) + 1 < (x :: xs).length),
            dif_pos (⟨by omega, hc⟩ : pos + 1 ≤ k ∧ k - (pos + 1) < xs.length)]
          rw [List.take_succ_cons, List.drop_succ_cons]
          have hget : (x :: xs).get ⟨k - (pos + 1) + 1, by rw [List.length_cons]; omega⟩
              = xs.get ⟨k - (pos + 1), hc⟩ := rfl
          rw [hget]
          cases hval : patchVal (xs.get ⟨k - (pos + 1), hc⟩) sub
          · simp
          · cases hbase : patchList (xs.drop (k - (pos + 1) + 1)) d (k + 1) <;>
              simp
        · rw [dif_neg (by
              rintro ⟨hc1, hc2⟩
              rw [List.length_cons] at hc2
              omega),
            dif_neg (fun hcc => hc hcc.2)]
          simp

theorem dlPairs_keys {recur : DiffFn} {a b : List JVal} {subpath : String} :
    ∀ (n i j : Nat) (ps : PredMap) (patches : List Entry) (ps1 : PredMap),
      dlPairs recur a b subpath i j n ps = .ok (patches, ps1) →
      ∀ e ∈ patches, ∃ m cd, e = .patch (.i m) cd ∧ i ≤ m := by
  intro n
  induction n with
  | zero =>
    intro i j ps patches ps1 h
    simp only [dlPairs] at h
    cases h
    intro e he
    cases he
  | succ n ih =>
    intro i j ps patches ps1 h
    simp only [dlPairs] at h
    match hga : a.get? i, hgb : b.get? j with
    | some aval, some bval =>
      rw [hga, hgb] at h
      simp only [] at h
      by_cases hat : is_atomic aval
      · rw [if_pos hat] at h
        intro e he
        obtain ⟨m, cd, hm, hmle⟩ := ih (i + 1) (j + 1) ps patches ps1 h e he
        exact ⟨m, cd, hm, by omega⟩
      · rw [if_neg hat] at h
        simp only [Bind.bind, Except.bind] at h
        match hrc : recur aval bval subpath ps with
        | .error e2 => rw [hrc] at h; cases h
        | .ok (cd, ps1n) =>
          rw [hrc] at h
          simp only [] at h
          match hrec : dlPairs recur a b subpath (i + 1) (j + 1) n ps1n with
          | .error e2 => rw [hrec] at h; cases h
          | .ok (rest, psr) =>
            rw [hrec] at h
            simp only [] at h
            by_cases hemp : cd.isEmpty = true
            · rw [if_pos hemp] at h
              cases h
              intro e he
              obtain ⟨m, cd2, hm, hmle⟩ := ih (i + 1) (j + 1) ps1n _ _ hrec e he
              exact ⟨m, cd2, hm, by omega⟩
            · rw [if_neg hemp] at h
              cases h
              intro e he
              rcases List.mem_cons.mp he with rfl | he2
              · exact ⟨i, cd, rfl, Nat.le_refl i⟩
              · obtain ⟨m, cd2, hm, hmle⟩ := ih (i + 1) (j + 1) ps1n _ _ hrec e he2
                exact ⟨m, cd2, hm, by omega⟩
    | some _, none => rw [hga, hgb] at h; cases h
    | none, some _ => rw [hga, hgb] at h; cases h
    | none, none => rw [hga, hgb] at h; cases h

theorem dlLoop_keys {recur : DiffFn} {a b : List JVal} {subpath : String}
    {cmp : JVal → JVal → Bool} :
    ∀ (sd : List (SEnt JVal)) (i j : Nat) (ps : PredMap) (es : List Entry)
      (ps2 : PredMap),
      i ≤ a.length → j ≤ b.length → Script cmp i (a.drop i) (b.drop j) sd →
      dlLoop recur a b subpath sd i j ps = .ok (es, ps2) →
      ∀ e ∈ es, ∀ m, e.key = .i m → i ≤ m := by
  intro sd
  induction sd with
  | nil =>
    intro i j ps es ps2 hi hj hS h
    simp only [dlLoop] at h
    split at h
    · intro e he m hm
      obtain ⟨m2, cd, rfl, hle⟩ := dlPairs_keys _ i j ps es ps2 h e he
      simp only [Entry.key, DKey.i.injEq] at hm
      omega
    · cases h
  | cons e0 rest ih =>
    intro i j ps es ps2 hi hj hS h
    have hkey : i ≤ e0.key := script_key_ge hS e0 (List.mem_cons_self _ _)
    obtain ⟨_, hb1, hb2, hS2, _⟩ := script_step hi hj hS
    simp only [dlLoop, Bind.bind, Except.bind] at h
    match h1 : dlPairs recur a b subpath i j (e0.key - i) ps with
    | .error e2 => rw [h1] at h; cases h
    | .ok (patches, ps1) =>
      rw [h1] at h
      simp only [] at h
      match h2 : dlLoop recur a b subpath rest (i + (e0.key - i) + (consumedS e0).1)
          (j + (e0.key - i) + (consumedS e0).2) ps1 with
      | .error e2 => rw [h2] at h; cases h
      | .ok (es2, psr) =>
        rw [h2] at h
        cases h
        intro e he m hm
        rcases List.mem_append.mp he with he1 | he1
        · obtain ⟨m2, cd, rfl, hle⟩ := dlPairs_keys _ i j ps patches ps1 h1 e he1
          simp only [Entry.key, DKey.i.injEq] at hm
          omega
        · rcases List.mem_cons.mp he1 with rfl | he2
          · cases e0 with
            | add k v =>
              simp only [SEnt.key] at hkey
              simp only [encodeS, Entry.key, DKey.i.injEq] at hm
              omega
            | remove k =>
              simp only [SEnt.key] at hkey
              simp only [encodeS, Entry.key, DKey.i.injEq] at hm
              omega
          · have := ih _ _ ps1 _ _ hb1 hb2 hS2 h2 e he2 m hm
            omega


theorem get?_drop_cons {l : List α} {i : Nat} {x : α} (h : l.get? i = some x) :
    l.drop i = x :: l.drop (i + 1) := by
  obtain ⟨hlt, hget⟩ := List.get?_eq_some.mp h
  rw [List.drop_eq_getElem_cons hlt]
  congr 1

theorem take_append_drop_self (l : List α) (n : Nat) :
    l.take n ++ l.drop n = l := List.take_append_drop n l

theorem patchList_remove_step (x : JVal) (xs : List JVal) (d : List Entry) (pos : Nat) :
    patchList (x :: xs) (.remove (.i pos) :: d) pos = patchList xs d (pos + 1) := by
  simp only [patchList]
  rw [if_pos (by simp)]
  simp only [Nat.sub_self, List.take_zero, List.drop_succ_cons, List.drop_zero,
    List.nil_append]
  cases hbase : patchList xs d (pos + 1) <;> simp

theorem patchList_add_step (v : JVal) (xs : List JVal) (d : List Entry) (pos : Nat) :
    patchList xs (.add (.i pos) v :: d) pos = (patchList xs d pos).map (fun r => v :: r) := by
  simp only [patchList]
  rw [if_pos (by simp)]
  simp only [Nat.sub_self, List.take_zero, List.drop_zero, List.nil_append]

theorem patchList_patch_step (x x2 : JVal) (xs : List JVal) (sub d : List Entry)
    (pos : Nat) (hx : patchVal x sub = some x2) :
    patchList (x :: xs) (.patch (.i pos) sub :: d) pos
      = (patchList xs d (pos + 1)).map (fun r => x2 :: r) := by
  simp only [patchList]
  rw [dif_pos ⟨Nat.le_refl _, by simp⟩]
  simp only [Nat.sub_self, List.get_cons_zero, List.take_zero, List.drop_succ_cons,
    List.drop_zero, List.nil_append]
  cases hbase : patchList xs d (pos + 1) <;> simp [hx]

theorem dlPairs_roundtrip {recur : DiffFn} {a b : List JVal} {subpath : String}
    (hrr : RecRound recur) (hp : PreservesSt recur)
    (hwa : ∀ x ∈ a, WfJ x) (hwb : ∀ x ∈ b, WfJ x) :
    ∀ (n i j : Nat) (ps : PredMap) (patches : List Entry) (ps1 : PredMap),
      StEq ps →
      (∀ k, k < n → ∃ x, a.get? (i + k) = some x ∧ b.get? (j + k) = some x) →
      dlPairs recur a b subpath i j n ps = .ok (patches, ps1) →
      ∀ tail : List Entry,
        (∀ e ∈ tail, ∀ m, e.key = .i m → i + n ≤ m) →
        patchList (a.drop i) (patches ++ tail) i
          = (patchList (a.drop (i + n)) tail (i + n)).map
              (fun r => (b.drop j).take n ++ r) := by
  intro n
  induction n with
  | zero =>
    intro i j ps patches ps1 hst hwin h tail htail
    simp only [dlPairs] at h
    cases h
    simp only [List.nil_append, Nat.add_zero, List.take_zero]
    cases hbase : patchList (a.drop i) tail i <;> simp
  | succ n ih =>
    intro i j ps patches ps1 hst hwin h tail htail
    simp only [dlPairs] at h
    match hga : a.get? i, hgb : b.get? j with
    | some aval, some bval =>
      rw [hga, hgb] at h
      simp only [] at h
      have heqv : bval = aval := by
        obtain ⟨x, h1, h2⟩ := hwin 0 (by omega)
        rw [Nat.add_zero] at h1 h2
        rw [hga] at h1
        rw [hgb] at h2
        cases h1
        cases h2
        rfl
      rw [heqv] at hgb h
      have hwin2 : ∀ k, k < n → ∃ x, a.get? (i + 1 + k) = some x ∧
          b.get? (j + 1 + k) = some x := by
        intro k hk
        obtain ⟨x, h1, h2⟩ := hwin (k + 1) (by omega)
        exact ⟨x, by rw [show i + 1 + k = i + (k + 1) by omega]; exact h1,
          by rw [show j + 1 + k = j + (k + 1) by omega]; exact h2⟩
      have hdropa : a.drop i = aval :: a.drop (i + 1) := get?_drop_cons hga
      have hdropb : b.drop j = aval :: b.drop (j + 1) := get?_drop_cons hgb
      have htail2 : ∀ e ∈ tail, ∀ m, e.key = .i m → i + 1 + n ≤ m := by
        intro e he m hm
        have := htail e he m hm
        omega
      by_cases hat : is_atomic aval
      · rw [if_pos hat] at h
        have hkeys : ∀ e ∈ patches ++ tail, ∀ m, e.key = .i m → i + 1 ≤ m := by
          intro e he m hm
          rcases List.mem_append.mp he with he1 | he1
          · obtain ⟨m2, cd2, rfl, hle⟩ := dlPairs_keys _ _ _ ps patches ps1 h e he1
            simp only [Entry.key, DKey.i.injEq] at hm
            omega
          · have := htail e he1 m hm
            omega
        rw [hdropa, patchList_shift aval (a.drop (i + 1)) (patches ++ tail) i hkeys]
        rw [ih (i + 1) (j + 1) ps patches ps1 hst hwin2 h tail htail2]
        rw [hdropb]
        rw [show i + 1 + n = i + (n + 1) by omega]
        cases hbase : patchList (a.drop (i + (n + 1))) tail (i + (n + 1)) <;>
          simp [List.take_succ_cons]
      · rw [if_neg hat] at h
        simp only [Bind.bind, Except.bind] at h
        match hrc : recur aval aval subpath ps with
        | .error e2 => rw [hrc] at h; cases h
        | .ok (cd, psA) =>
          rw [hrc] at h
          simp only [] at h
          have hstA := hp aval aval subpath ps cd psA hst hrc
          match hrec : dlPairs recur a b subpath (i + 1) (j + 1) n psA with
          | .error e2 => rw [hrec] at h; cases h
          | .ok (rest, psB) =>
            rw [hrec] at h
            simp only [] at h
            have hWa : WfJ aval := hwa aval (List.get?_mem hga)
            have hpv : patchVal aval cd = some aval :=
              hrr aval aval subpath ps cd psA hWa hWa hst hrc
            have hrestkeys : ∀ e ∈ rest ++ tail, ∀ m, e.key = .i m → i + 1 ≤ m := by
              intro e he m hm
              rcases List.mem_append.mp he with he1 | he1
              · obtain ⟨m2, cd2, rfl, hle⟩ :=
                  dlPairs_keys _ _ _ psA rest psB hrec e he1
                simp only [Entry.key, DKey.i.injEq] at hm
                omega
              · have := htail e he1 m hm
                omega
            have hihres := ih (i + 1) (j + 1) psA rest psB hstA hwin2 hrec tail htail2
            by_cases hemp : cd.isEmpty = true
            · rw [if_pos hemp] at h
              cases h
              rw [hdropa, patchList_shift aval (a.drop (i + 1)) _ i hrestkeys, hihres,
                hdropb, show i + 1 + n = i + (n + 1) by omega]
              cases hbase : patchList (a.drop (i + (n + 1))) tail (i + (n + 1)) <;>
                simp [List.take_succ_cons]
            · rw [if_neg hemp] at h
              cases h
              rw [hdropa]
              simp only [List.cons_append]
              rw [patchList_patch_step aval aval (a.drop (i + 1)) cd (rest ++ tail) i hpv,
                hihres, hdropb, show i + 1 + n = i + (n + 1) by omega]
              cases hbase : patchList (a.drop (i + (n + 1))) tail (i + (n + 1)) <;>
                simp [List.take_succ_cons]
    | some _, none => rw [hga, hgb] at h; cases h
    | none, some _ => rw [hga, hgb] at h; cases h
    | none, none => rw [hga, hgb] at h; cases h

theorem dlLoop_roundtrip {recur : DiffFn} {a b : List JVal} {subpath : String}
    (hrr : RecRound recur) (hp : PreservesSt recur)
    (hwa : ∀ x ∈ a, WfJ x) (hwb : ∀ x ∈ b, WfJ x) :
    ∀ (sd : List (SEnt JVal)) (i j : Nat) (ps : PredMap) (es : List Entry)
      (ps2 : PredMap), StEq ps → i ≤ a.length → j ≤ b.length →
      Script defaultPred i (a.drop i) (b.drop j) sd →
      dlLoop recur a b subpath sd i j ps = .ok (es, ps2) →
      patchList (a.drop i) es i = some (b.drop j) := by
  intro sd
  induction sd with
  | nil =>
    intro i j ps es ps2 hst hi hj hS h
    obtain ⟨hlen, hwin⟩ := script_done_inv hi hj hS
    simp only [dlLoop] at h
    rw [if_pos ⟨hi, hj, hlen⟩] at h
    have hwin2 : ∀ k, k < a.length - i →
        ∃ x, a.get? (i + k) = some x ∧ b.get? (j + k) = some x := by
      intro k hk
      obtain ⟨x, y, h1, h2, h3⟩ := hwin k hk
      rw [defaultPred_eq_true_iff] at h3
      exact ⟨x, h1, h3 ▸ h2⟩
    have hmain := dlPairs_roundtrip hrr hp hwa hwb (a.length - i) i j ps es ps2
      hst hwin2 h [] (fun e he => absurd he (List.not_mem_nil e))
    rw [List.append_nil] at hmain
    rw [hmain, show i + (a.length - i) = a.length from by omega, List.drop_length]
    simp only [patchList, Option.map_some', List.append_nil]
    congr 1
    have hbl : (b.drop j).length = a.length - i := by
      rw [List.length_drop]
      omega
    rw [← hbl]
    exact List.take_length _
  | cons e rest ih =>
    intro i j ps es ps2 hst hi hj hS h
    have hkey : i ≤ e.key := script_key_ge hS e (List.mem_cons_self _ _)
    obtain ⟨hwin, hb1, hb2, hS2, hval⟩ := script_step hi hj hS
    simp only [dlLoop, Bind.bind, Except.bind] at h
    match h1 : dlPairs recur a b subpath i j (e.key - i) ps with
    | .error e2 => rw [h1] at h; cases h
    | .ok (patches, ps1) =>
      rw [h1] at h
      simp only [] at h
      have hst1 := dlPairs_preserves hp _ i j ps patches ps1 hst h1
      match h2 : dlLoop recur a b subpath rest (i + (e.key - i) + (consumedS e).1)
          (j + (e.key - i) + (consumedS e).2) ps1 with
      | .error e2 => rw [h2] at h; cases h
      | .ok (es2, psr) =>
        rw [h2] at h
        cases h
        have hwin2 : ∀ k, k < e.key - i →
            ∃ x, a.get? (i + k) = some x ∧ b.get? (j + k) = some x := by
          intro k hk
          obtain ⟨x, y, hh1, hh2, hh3⟩ := hwin k hk
          rw [defaultPred_eq_true_iff] at hh3
          exact ⟨x, hh1, hh3 ▸ hh2⟩
        have htailkeys : ∀ e2 ∈ (encodeS e :: es2), ∀ m, Entry.key e2 = .i m →
            i + (e.key - i) ≤ m := by
          intro e2 he2 m hm
          rcases List.mem_cons.mp he2 with rfl | he3
          · cases e with
            | add k v =>
              simp only [encodeS, Entry.key, DKey.i.injEq] at hm
              simp only [SEnt.key] at hkey ⊢
              omega
            | remove k =>
              simp only [encodeS, Entry.key, DKey.i.injEq] at hm
              simp only [SEnt.key] at hkey ⊢
              omega
          · have := dlLoop_keys rest _ _ ps1 es2 psr hb1 hb2 hS2 h2 e2 he3 m hm
            omega
        have hmain := dlPairs_roundtrip hrr hp hwa hwb (e.key - i) i j ps patches ps1
          hst hwin2 h1 (encodeS e :: es2) htailkeys
        rw [hmain]
        have hIH := ih _ _ ps1 es2 psr hst1 hb1 hb2 hS2 h2
        cases e with
        | remove m =>
          simp only [SEnt.key] at hkey
          simp only [SEnt.key, consumedS, Nat.add_zero] at hIH hb1 ⊢
          rw [show i + (m - i) = m from by omega] at hIH hb1 ⊢
          simp only [encodeS]
          have hlt : m < a.length := by omega
          have hx : a.get? m = some (a.get ⟨m, hlt⟩) := List.get?_eq_some.mpr ⟨hlt, rfl⟩
          rw [get?_drop_cons hx, patchList_remove_step _ (a.drop (m + 1)) es2 m]
          rw [hIH]
          simp only [Option.map_some']
          congr 1
          have hdd : b.drop (j + (m - i)) = (b.drop j).drop (m - i) := by
            rw [List.drop_drop]
          rw [hdd]
          exact take_append_drop_self (b.drop j) (m - i)
        | add m v =>
          simp only [SEnt.key] at hkey
          simp only [SEnt.key, consumedS, Nat.add_zero] at hIH hval ⊢
          rw [show i + (m - i) = m from by omega] at hIH ⊢
          simp only [encodeS]
          rw [patchList_add_step v (a.drop m) es2 m, hIH]
          simp only [Option.map_some']
          have hv : b.get? (j + (m - i)) = some v := hval v rfl
          congr 1
          have hbd : b.drop (j + (m - i)) = v :: b.drop (j + (m - i) + 1) :=
            get?_drop_cons hv
          have hdd : b.drop (j + (m - i)) = (b.drop j).drop (m - i) := by
            rw [List.drop_drop]
          rw [← hbd, hdd]
          exact take_append_drop_self (b.drop j) (m - i)

/-! ### Round-trip toolkit: replaying character diffs -/


theorem patchStr_shift (c : Char) (cs : List Char) (es : List Entry) (pos : Nat)
    (hk : ∀ e ∈ es, ∀ m, e.key = .i m → pos + 1 ≤ m) :
    patchStr (c :: cs) es pos = (patchStr cs es (pos + 1)).map (fun r => c :: r) := by
  cases es with
  | nil => simp [patchStr]
  | cons e d =>
    cases e with
    | add k v =>
      cases k with
      | s s0 => simp [patchStr]
      | i k =>
        cases v with
        | str vs =>
          match hvs : vs.data with
          | [] => simp [patchStr, hvs]
          | [c2] =>
            have hp1 : pos + 1 ≤ k := hk _ (List.mem_cons_self _ _) k rfl
            have hkp : k - pos = (k - (pos + 1)) + 1 := by omega
            simp only [patchStr, hvs, hkp]
            by_cases hc : k - (pos + 1) ≤ cs.length
            · rw [if_pos (by simp [List.length_cons]; omega),
                if_pos (by simp; omega)]
              rw [List.take_succ_cons, List.drop_succ_cons]
              cases hbase : patchStr (cs.drop (k - (pos + 1))) d k <;> simp
            · rw [if_neg (by simp [List.length_cons]; omega),
                if_neg (by simp; omega)]
              simp
          | c2 :: c3 :: cr => simp [patchStr, hvs]
        | atom n => simp [patchStr]
        | list xs => simp [patchStr]
        | obj kvs => simp [patchStr]
    | remove k =>
      cases k with
      | s s0 => simp [patchStr]
      | i k =>
        have hp1 : pos + 1 ≤ k := hk _ (List.mem_cons_self _ _) k rfl
        have hkp : k - pos = (k - (pos + 1)) + 1 := by omega
        simp only [patchStr, hkp]
        by_cases hc : k - (pos + 1) < cs.length
        · rw [if_pos (by simp [List.length_cons]; omega),
            if_pos (by simp; omega)]
          rw [List.take_succ_cons, List.drop_succ_cons]
          cases hbase : patchStr (cs.drop (k - (pos + 1) + 1)) d (k + 1) <;> simp
        · rw [if_neg (by simp [List.length_cons]; omega),
            if_neg (by simp; omega)]
          simp
    | replace k v => simp [patchStr]
    | patch k sub => simp [patchStr]

theorem patchStr_remove_step (c : Char) (cs : List Char) (d : List Entry) (pos : Nat) :
    patchStr (c :: cs) (.remove (.i pos) :: d) pos = patchStr cs d (pos + 1) := by
  simp only [patchStr]
  rw [if_pos (by simp)]
  simp only [Nat.sub_self, List.take_zero, List.drop_succ_cons, List.drop_zero,
    List.nil_append]
  cases hbase : patchStr cs d (pos + 1) <;> simp

theorem patchStr_add_step (c : Char) (cs : List Char) (d : List Entry) (pos : Nat) :
    patchStr cs (.add (.i pos) (.str (String.mk [c])) :: d) pos
      = (patchStr cs d pos).map (fun r => c :: r) := by
  simp only [patchStr]
  rw [if_pos (by simp)]
  simp only [Nat.sub_self, List.take_zero, List.drop_zero, List.nil_append]

theorem encodeChar_key (e : SEnt Char) : (encodeChar e).key = .i e.key := by
  cases e <;> rfl

theorem forall₂_beq_eq : ∀ {cs ds : List Char},
    List.Forall₂ (fun x y => (x == y) = true) cs ds → cs = ds := by
  intro cs ds h
  induction h with
  | nil => rfl
  | cons hc _ ih =>
    rw [eq_of_beq hc, ih]

/-- Replaying the character script produced by the modelled text differ
reconstructs the target character list. -/
theorem patchStr_script :
    ∀ {i : Nat} {cs ds : List Char} {sd : List (SEnt Char)},
      Script (fun c d => c == d) i cs ds sd →
      patchStr cs (sd.map encodeChar) i = some ds := by
  intro i cs ds sd h
  induction h with
  | done hF =>
    rw [forall₂_beq_eq hF]
    simp [patchStr]
  | skip hc h2 ih =>
    rename_i i2 x y xs ys sd2
    have hx : x = y := eq_of_beq hc
    subst hx
    rw [patchStr_shift x _ _ _ (by
      intro e he m hm
      obtain ⟨e0, he0, rfl⟩ := List.mem_map.mp he
      rw [encodeChar_key] at hm
      cases hm
      exact script_key_ge h2 e0 he0)]
    rw [ih]
    rfl
  | rem h2 ih =>
    simp only [List.map_cons, encodeChar]
    rw [patchStr_remove_step, ih]
  | add h2 ih =>
    simp only [List.map_cons, encodeChar]
    rw [patchStr_add_step, ih]
    rfl

/-! ### Round-trip toolkit: association lists -/

theorem patchVal_nil (v : JVal) : patchVal v [] = some v := by
  cases v <;> simp [patchVal]

theorem lookupKv_isSome_of_mem_keys {kvs : List (String × JVal)} {k : String}
    (h : k ∈ kvs.map Prod.fst) : (lookupKv kvs k).isSome := by
  induction kvs with
  | nil => cases h
  | cons kv rest ih =>
    obtain ⟨k0, v0⟩ := kv
    simp only [lookupKv]
    by_cases hk : k0 = k
    · rw [if_pos hk]; rfl
    · rw [if_neg hk]
      rcases List.mem_cons.mp h with h1 | h1
      · exact absurd h1.symm hk
      · exact ih h1

theorem lookupKv_eq_none_of_not_mem_keys {kvs : List (String × JVal)} {k : String}
    (h : ¬ k ∈ kvs.map Prod.fst) : lookupKv kvs k = none := by
  induction kvs with
  | nil => rfl
  | cons kv rest ih =>
    obtain ⟨k0, v0⟩ := kv
    simp only [lookupKv]
    rw [if_neg (fun hh => h (by simp [hh]))]
    exact ih (fun hh => h (by simp [hh]))

theorem mem_keys_of_lookupKv_isSome {kvs : List (String × JVal)} {k : String}
    (h : (lookupKv kvs k).isSome) : k ∈ kvs.map Prod.fst := by
  by_contra hh
  rw [lookupKv_eq_none_of_not_mem_keys hh] at h
  cases h

theorem lookupKv_mem {kvs : List (String × JVal)} {k : String} {v : JVal}
    (h : lookupKv kvs k = some v) : (k, v) ∈ kvs := by
  induction kvs with
  | nil => cases h
  | cons kv rest ih =>
    obtain ⟨k0, v0⟩ := kv
    simp only [lookupKv] at h
    by_cases hk : k0 = k
    · rw [if_pos hk] at h
      cases h
      subst hk
      exact List.mem_cons_self _ _
    · rw [if_neg hk] at h
      exact List.mem_cons_of_mem _ (ih h)

theorem mem_lookupKv_of_nodup {kvs : List (String × JVal)} {k : String} {v : JVal}
    (hnd : (kvs.map Prod.fst).Nodup) (h : (k, v) ∈ kvs) : lookupKv kvs k = some v := by
  induction kvs with
  | nil => cases h
  | cons kv rest ih =>
    obtain ⟨k0, v0⟩ := kv
    simp only [List.map_cons, List.nodup_cons] at hnd
    simp only [lookupKv]
    rcases List.mem_cons.mp h with h1 | h1
    · cases h1
      rw [if_pos rfl]
    · by_cases hk : k0 = k
      · subst hk
        exact absurd (by simpa using List.mem_map_of_mem Prod.fst h1) hnd.1
      · rw [if_neg hk]
        exact ih hnd.2 h1

theorem lookupKv_of_perm {kvs1 kvs2 : List (String × JVal)} {k : String}
    (hnd : (kvs1.map Prod.fst).Nodup) (hperm : kvs1.Perm kvs2) :
    lookupKv kvs2 k = lookupKv kvs1 k := by
  have hnd2 : (kvs2.map Prod.fst).Nodup := (hperm.map Prod.fst).nodup_iff.mp hnd
  cases h1 : lookupKv kvs1 k with
  | some v =>
    exact mem_lookupKv_of_nodup hnd2 (hperm.mem_iff.mp (lookupKv_mem h1))
  | none =>
    apply lookupKv_eq_none_of_not_mem_keys
    intro hh
    have := lookupKv_isSome_of_mem_keys ((hperm.map Prod.fst).mem_iff.mpr hh)
    rw [h1] at this
    cases this

theorem lookup_eraseKv_self {kvs : List (String × JVal)} {k : String}
    (hnd : (kvs.map Prod.fst).Nodup) : lookupKv (eraseKv kvs k) k = none := by
  induction kvs with
  | nil => rfl
  | cons kv rest ih =>
    obtain ⟨k0, v0⟩ := kv
    simp only [List.map_cons, List.nodup_cons] at hnd
    simp only [eraseKv]
    by_cases hk : k0 = k
    · rw [if_pos hk]
      subst hk
      exact lookupKv_eq_none_of_not_mem_keys hnd.1
    · rw [if_neg hk]
      simp only [lookupKv]
      rw [if_neg hk]
      exact ih hnd.2

theorem lookup_eraseKv_other {kvs : List (String × JVal)} {k q : String}
    (hne : q ≠ k) : lookupKv (eraseKv kvs k) q = lookupKv kvs q := by
  induction kvs with
  | nil => rfl
  | cons kv rest ih =>
    obtain ⟨k0, v0⟩ := kv
    simp only [eraseKv, lookupKv]
    by_cases hk : k0 = k
    · rw [if_pos hk, if_neg (by rw [hk]; exact fun hh => hne hh.symm)]
    · rw [if_neg hk]
      simp only [lookupKv]
      by_cases hq : k0 = q
      · rw [if_pos hq, if_pos hq]
      · rw [if_neg hq, if_neg hq]
        exact ih

theorem keys_eraseKv_sublist (kvs : List (String × JVal)) (k : String) :
    ((eraseKv kvs k).map Prod.fst).Sublist (kvs.map Prod.fst) := by
  induction kvs with
  | nil => simp [eraseKv]
  | cons kv rest ih =>
    obtain ⟨k0, v0⟩ := kv
    simp only [eraseKv]
    by_cases hk : k0 = k
    · rw [if_pos hk]
      simp only [List.map_cons]
      exact (List.sublist_cons_self _ _)
    · rw [if_neg hk]
      simp only [List.map_cons]
      exact ih.cons₂ k0

theorem keys_setKv (kvs : List (String × JVal)) (k : String) (v : JVal) :
    (setKv kvs k v).map Prod.fst = kvs.map Prod.fst := by
  induction kvs with
  | nil => rfl
  | cons kv rest ih =>
    obtain ⟨k0, v0⟩ := kv
    simp only [setKv]
    by_cases hk : k0 = k
    · rw [if_pos hk]
      simp
    · rw [if_neg hk]
      simp [ih]

theorem lookup_setKv_self {kvs : List (String × JVal)} {k : String} {v : JVal}
    (h : (lookupKv kvs k).isSome) : lookupKv (setKv kvs k v) k = some v := by
  induction kvs with
  | nil => cases h
  | cons kv rest ih =>
    obtain ⟨k0, v0⟩ := kv
    simp only [setKv, lookupKv] at h ⊢
    by_cases hk : k0 = k
    · rw [if_pos hk]
      simp only [lookupKv]
      rw [if_pos hk]
    · rw [if_neg hk]
      simp only [lookupKv]
      rw [if_neg hk]
      rw [if_neg hk] at h
      exact ih h

theorem lookup_setKv_other {kvs : List (String × JVal)} {k q : String} {v : JVal}
    (hne : q ≠ k) : lookupKv (setKv kvs k v) q = lookupKv kvs q := by
  induction kvs with
  | nil => rfl
  | cons kv rest ih =>
    obtain ⟨k0, v0⟩ := kv
    simp only [setKv, lookupKv]
    by_cases hk : k0 = k
    · rw [if_pos hk]
      simp only [lookupKv]
      rw [if_neg (by rw [hk]; exact fun hh => hne hh.symm), if_neg (by rw [hk]; exact fun hh => hne hh.symm)]
    · rw [if_neg hk]
      simp only [lookupKv]
      by_cases hq : k0 = q
      · rw [if_pos hq, if_pos hq]
      · rw [if_neg hq, if_neg hq]
        exact ih

theorem lookup_append_single_self {kvs : List (String × JVal)} {k : String} {v : JVal}
    (h : lookupKv kvs k = none) : lookupKv (kvs ++ [(k, v)]) k = some v := by
  induction kvs with
  | nil => simp [lookupKv]
  | cons kv rest ih =>
    obtain ⟨k0, v0⟩ := kv
    simp only [lookupKv, List.cons_append] at h ⊢
    by_cases hk : k0 = k
    · rw [if_pos hk] at h
      cases h
    · rw [if_neg hk] at h ⊢
      exact ih h

theorem lookup_append_single_other {kvs : List (String × JVal)} {k q : String}
    {v : JVal} (hne : q ≠ k) :
    lookupKv (kvs ++ [(k, v)]) q = lookupKv kvs q := by
  induction kvs with
  | nil =>
    simp only [List.nil_append, lookupKv]
    rw [if_neg (fun hh => hne hh.symm)]
  | cons kv rest ih =>
    obtain ⟨k0, v0⟩ := kv
    simp only [lookupKv, List.cons_append]
    by_cases hq : k0 = q
    · rw [if_pos hq, if_pos hq]
    · rw [if_neg hq, if_neg hq]
      exact ih

theorem strLt_irrefl (k : String) : ¬ strLt k k := by
  unfold strLt strLtB
  rw [charsLt_irrefl]
  exact Bool.false_ne_true

theorem strLt_trans {a b c : String} (h1 : strLt a b) (h2 : strLt b c) :
    strLt a c :=
  charsLt_trans a.data b.data c.data h1 h2

theorem strEq_of_not_lt {a b : String} (h1 : strLtB a b = false)
    (h2 : strLtB b a = false) : a = b := by
  cases a with
  | mk da =>
    cases b with
    | mk db =>
      unfold strLtB at h1 h2
      exact congrArg String.mk (charsLt_connex da db h1 h2)

theorem strLt_of_le_ne {a b : String} (h1 : strLeB a b = true) (h2 : a ≠ b) :
    strLt a b := by
  unfold strLeB at h1
  rw [Bool.not_eq_true'] at h1
  unfold strLt
  by_contra hh
  rw [Bool.not_eq_true] at hh
  exact h2 (strEq_of_not_lt hh h1)

theorem pairwise_strLt_nodup {ks : List String} (h : ks.Pairwise strLt) :
    ks.Nodup := by
  refine h.imp ?_
  intro a b hab he
  subst he
  exact strLt_irrefl a hab

theorem lookupKv_cons_self {k : String} {v : JVal} {r : List (String × JVal)} :
    lookupKv ((k, v) :: r) k = some v := by
  simp [lookupKv]

theorem lookupKv_cons_other {k q : String} {v : JVal} {r : List (String × JVal)}
    (hne : k ≠ q) : lookupKv ((k, v) :: r) q = lookupKv r q := by
  simp [lookupKv, hne]

theorem sorted_kvs_ext : ∀ {l1 l2 : List (String × JVal)},
    (l1.map Prod.fst).Pairwise strLt → (l2.map Prod.fst).Pairwise strLt →
    (∀ q, lookupKv l1 q = lookupKv l2 q) → l1 = l2 := by
  intro l1
  induction l1 with
  | nil =>
    intro l2 _ _ hq
    cases l2 with
    | nil => rfl
    | cons kv r2 =>
      obtain ⟨k2, v2⟩ := kv
      have := hq k2
      rw [lookupKv_cons_self] at this
      cases this
  | cons kv r1 ih =>
    obtain ⟨k1, v1⟩ := kv
    intro l2 hs1 hs2 hq
    cases l2 with
    | nil =>
      have := hq k1
      rw [lookupKv_cons_self] at this
      cases this
    | cons kv2 r2 =>
      obtain ⟨k2, v2⟩ := kv2
      simp only [List.map_cons, List.pairwise_cons] at hs1 hs2
      have hnotr1 : lookupKv r1 k1 = none := by
        apply lookupKv_eq_none_of_not_mem_keys
        intro hh
        exact strLt_irrefl k1 (hs1.1 k1 hh)
      have hnotr2 : lookupKv r2 k2 = none := by
        apply lookupKv_eq_none_of_not_mem_keys
        intro hh
        exact strLt_irrefl k2 (hs2.1 k2 hh)
      have hkk : k1 = k2 := by
        by_contra hne
        by_cases hlt : strLt k1 k2
        · have := hq k1
          rw [lookupKv_cons_self, lookupKv_cons_other (fun hh => hne hh.symm)] at this
          rw [lookupKv_eq_none_of_not_mem_keys (fun hh =>
            strLt_irrefl k1 (strLt_trans hlt (hs2.1 k1 hh)))] at this
          cases this
        · by_cases hlt2 : strLt k2 k1
          · have := hq k2
            rw [lookupKv_cons_self, lookupKv_cons_other (fun hh => hne hh)] at this
            rw [lookupKv_eq_none_of_not_mem_keys (fun hh =>
              strLt_irrefl k2 (strLt_trans hlt2 (hs1.1 k2 hh)))] at this
            cases this
          · unfold strLt at hlt hlt2
            rw [Bool.not_eq_true] at hlt hlt2
            exact hne (strEq_of_not_lt hlt hlt2)
      subst hkk
      have hvv : v1 = v2 := by
        have := hq k1
        rw [lookupKv_cons_self, lookupKv_cons_self] at this
        cases this
        rfl
      subst hvv
      have hqr : ∀ q, lookupKv r1 q = lookupKv r2 q := by
        intro q
        by_cases hqk : k1 = q
        · subst hqk
          rw [hnotr1, hnotr2]
        · have := hq q
          rw [lookupKv_cons_other hqk, lookupKv_cons_other hqk] at this
          exact this
      rw [ih hs1.2 hs2.2 hqr]

theorem sortKvs_perm (kvs : List (String × JVal)) : (sortKvs kvs).Perm kvs :=
  List.perm_insertionSort kvLe kvs

theorem lookup_sortKvs {kvs : List (String × JVal)} {q : String}
    (hnd : (kvs.map Prod.fst).Nodup) :
    lookupKv (sortKvs kvs) q = lookupKv kvs q :=
  lookupKv_of_perm hnd (sortKvs_perm kvs).symm

theorem sortKvs_pairwise {kvs : List (String × JVal)}
    (hnd : (kvs.map Prod.fst).Nodup) :
    ((sortKvs kvs).map Prod.fst).Pairwise strLt := by
  have hs : (sortKvs kvs).Pairwise kvLe := List.sorted_insertionSort kvLe kvs
  have hnd2 : ((sortKvs kvs).map Prod.fst).Nodup :=
    ((sortKvs_perm kvs).map Prod.fst).nodup_iff.mpr hnd
  unfold List.Nodup at hnd2
  rw [List.pairwise_map] at hnd2 ⊢
  have hcomb := hs.and hnd2
  exact hcomb.imp (fun hab => strLt_of_le_ne hab.1 hab.2)


theorem applies_skey {e : Entry} {kvs : List (String × JVal)}
    (h : Applies e kvs) : ∃ k, e.key = .s k := by
  match e with
  | .remove (.s k) => exact ⟨k, rfl⟩
  | .replace (.s k) _ => exact ⟨k, rfl⟩
  | .add (.s k) _ => exact ⟨k, rfl⟩
  | .patch (.s k) _ => exact ⟨k, rfl⟩
  | .remove (.i _) => cases h
  | .replace (.i _) _ => cases h
  | .add (.i _) _ => cases h
  | .patch (.i _) _ => cases h

theorem applies_congr {e : Entry} {kvs1 kvs2 : List (String × JVal)} {k : String}
    (hk : e.key = .s k) (hl : lookupKv kvs2 k = lookupKv kvs1 k)
    (h : Applies e kvs1) : Applies e kvs2 := by
  match e with
  | .remove (.s k0) =>
    cases hk
    simpa only [Applies, hl] using h
  | .replace (.s k0) _ =>
    cases hk
    simpa only [Applies, hl] using h
  | .add (.s k0) _ =>
    cases hk
    simpa only [Applies, hl] using h
  | .patch (.s k0) sub =>
    cases hk
    simpa only [Applies, hl] using h
  | .remove (.i _) => cases h
  | .replace (.i _) _ => cases h
  | .add (.i _) _ => cases h
  | .patch (.i _) _ => cases h

theorem effectE_congr {e : Entry} {kvs1 kvs2 : List (String × JVal)} {k : String}
    (hk : e.key = .s k) (hl : lookupKv kvs2 k = lookupKv kvs1 k) :
    effectE e kvs2 = effectE e kvs1 := by
  match e with
  | .remove q => rfl
  | .replace _ _ => rfl
  | .add _ _ => rfl
  | .patch (.s k0) sub =>
    cases hk
    simp only [effectE, hl]
  | .patch (.i _) _ => rfl

theorem patchObj_spec : ∀ (es : List Entry) (kvs : List (String × JVal)),
    (kvs.map Prod.fst).Nodup →
    (es.map Entry.key).Nodup →
    (∀ e ∈ es, Applies e kvs) →
    ∃ kvs2, patchObj kvs es = some kvs2 ∧
      (kvs2.map Prod.fst).Nodup ∧
      (∀ q, (∀ e ∈ es, e.key ≠ .s q) → lookupKv kvs2 q = lookupKv kvs q) ∧
      (∀ q e, e ∈ es → e.key = .s q → lookupKv kvs2 q = effectE e kvs) := by
  intro es
  induction es with
  | nil =>
    intro kvs hnd _ _
    refine ⟨kvs, by simp [patchObj], hnd, fun q _ => rfl, ?_⟩
    intro q e he
    cases he
  | cons e d ih =>
    intro kvs hnd hkeys hall
    obtain ⟨k, hk⟩ := applies_skey (hall e (List.mem_cons_self _ _))
    have happ := hall e (List.mem_cons_self _ _)
    simp only [List.map_cons, List.nodup_cons] at hkeys
    have hdk : ∀ e2 ∈ d, e2.key ≠ .s k := by
      intro e2 he2 hh
      exact hkeys.1 (by rw [hk, ← hh]; exact List.mem_map_of_mem Entry.key he2)
    -- one unified step: the head entry turns `kvs` into `step`
    obtain ⟨step, hstepEq, hstepNd, hstepSelf, hstepOther⟩ :
        ∃ step, patchObj kvs (e :: d) = patchObj step d ∧
          (step.map Prod.fst).Nodup ∧
          lookupKv step k = effectE e kvs ∧
          (∀ q, q ≠ k → lookupKv step q = lookupKv kvs q) := by
      match e with
      | .remove (.s k) =>
        cases hk
        simp only [Applies] at happ
        refine ⟨eraseKv kvs k, by simp [patchObj, happ], ?_, ?_, ?_⟩
        · exact hnd.sublist (keys_eraseKv_sublist kvs k)
        · rw [lookup_eraseKv_self hnd]
          rfl
        · intro q hq
          exact lookup_eraseKv_other hq
      | .replace (.s k) v =>
        cases hk
        simp only [Applies] at happ
        refine ⟨setKv kvs k v, by simp [patchObj, happ], ?_, ?_, ?_⟩
        · rw [keys_setKv]
          exact hnd
        · rw [lookup_setKv_self happ]
          rfl
        · intro q hq
          exact lookup_setKv_other hq
      | .add (.s k) v =>
        cases hk
        simp only [Applies] at happ
        refine ⟨kvs ++ [(k, v)], by simp [patchObj, happ], ?_, ?_, ?_⟩
        · rw [List.map_append]
          refine hnd.append (by simp) ?_
          intro q hq1 hq2
          simp only [List.map_cons, List.map_nil, List.mem_singleton] at hq2
          subst hq2
          have := lookupKv_isSome_of_mem_keys hq1
          rw [happ] at this
          cases this
        · rw [lookup_append_single_self happ]
          rfl
        · intro q hq
          exact lookup_append_single_other hq
      | .patch (.s k) sub =>
        cases hk
        simp only [Applies] at happ
        obtain ⟨v, v2, hv, hv2⟩ := happ
        refine ⟨setKv kvs k v2, by simp [patchObj, hv, hv2], ?_, ?_, ?_⟩
        · rw [keys_setKv]
          exact hnd
        · rw [lookup_setKv_self (by rw [hv]; rfl)]
          simp [effectE, hv, hv2]
        · intro q hq
          exact lookup_setKv_other hq
      | .remove (.i _) => cases happ
      | .replace (.i _) _ => cases happ
      | .add (.i _) _ => cases happ
      | .patch (.i _) _ => cases happ
    have hdapp : ∀ e2 ∈ d, Applies e2 step := by
      intro e2 he2
      obtain ⟨k2, hk2⟩ := applies_skey (hall e2 (List.mem_cons_of_mem _ he2))
      refine applies_congr hk2 ?_ (hall e2 (List.mem_cons_of_mem _ he2))
      apply hstepOther
      intro hh
      exact hdk e2 he2 (by rw [hk2, hh])
    obtain ⟨kvs2, hp2, hnd2, huntouched, hentries⟩ := ih step hstepNd hkeys.2 hdapp
    refine ⟨kvs2, by rw [hstepEq, hp2], hnd2, ?_, ?_⟩
    · intro q hq
      rw [huntouched q (fun e2 he2 => hq e2 (List.mem_cons_of_mem _ he2))]
      apply hstepOther
      intro hh
      exact hq e (List.mem_cons_self _ _) (by rw [hk, hh])
    · intro q e0 he0 hkey
      rcases List.mem_cons.mp he0 with rfl | he1
      · have hqk : q = k := by
          rw [hkey] at hk
          cases hk
          rfl
        subst hqk
        rw [huntouched q (fun e2 he2 hh => hdk e2 he2 (hk ▸ hh))]
        rw [hk] at hkey
        exact hstepSelf
      · have hne : q ≠ k := by
          intro hh
          exact hdk e0 he1 (by rw [hkey, hh])
        rw [hentries q e0 he1 hkey]
        exact effectE_congr hkey (hstepOther q hne)

theorem mem_sortStr {ks : List String} {k : String} : k ∈ sortStr ks ↔ k ∈ ks :=
  (List.perm_insertionSort strLe ks).mem_iff

theorem mem_setKeys {a : List (String × JVal)} {k : String} :
    k ∈ setKeys a ↔ k ∈ a.map Prod.fst := List.mem_dedup

theorem setKeys_contains {a : List (String × JVal)} {k : String} :
    (setKeys a).contains k = true ↔ k ∈ a.map Prod.fst := by
  rw [List.contains_eq_any_beq]
  simp only [List.any_eq_true, beq_iff_eq]
  constructor
  · rintro ⟨x, hx, rfl⟩
    exact mem_setKeys.mp hx
  · intro hk
    exact ⟨k, mem_setKeys.mpr hk, rfl⟩

theorem sortStr_nodup {ks : List String} (h : ks.Nodup) : (sortStr ks).Nodup :=
  (List.perm_insertionSort strLe ks).nodup_iff.mpr h

theorem ddAdds_spec {b : List (String × JVal)} :
    ∀ (ks : List String) (adds : List Entry), ddAdds b ks = .ok adds →
      (∀ e ∈ adds, ∃ k v, e = .add (.s k) v ∧ k ∈ ks ∧ lookupKv b k = some v) ∧
      (∀ k ∈ ks, ∃ v, lookupKv b k = some v ∧ .add (.s k) v ∈ adds) := by
  intro ks
  induction ks with
  | nil =>
    intro adds h
    simp only [ddAdds] at h
    cases h
    exact ⟨fun e he => absurd he (List.not_mem_nil e),
      fun k hk => absurd hk (List.not_mem_nil k)⟩
  | cons k ks ih =>
    intro adds h
    simp only [ddAdds, Bind.bind, Except.bind] at h
    match hb : lookupKv b k with
    | none => rw [hb] at h; cases h
    | some v =>
      rw [hb] at h
      simp only [] at h
      match hrest : ddAdds b ks with
      | .error e2 => rw [hrest] at h; cases h
      | .ok rest =>
        rw [hrest] at h
        simp only [] at h
        cases h
        obtain ⟨ih1, ih2⟩ := ih rest hrest
        constructor
        · intro e he
          rcases List.mem_cons.mp he with rfl | he1
          · exact ⟨k, v, rfl, List.mem_cons_self _ _, hb⟩
          · obtain ⟨k2, v2, rfl, hk2, hv2⟩ := ih1 e he1
            exact ⟨k2, v2, rfl, List.mem_cons_of_mem _ hk2, hv2⟩
        · intro k2 hk2
          rcases List.mem_cons.mp hk2 with rfl | hk3
          · exact ⟨v, hb, List.mem_cons_self _ _⟩
          · obtain ⟨v2, hv2, hm2⟩ := ih2 k2 hk3
            exact ⟨v2, hv2, List.mem_cons_of_mem _ hm2⟩

theorem ddMains_spec {recur : DiffFn} {a b : List (String × JVal)} {path : String}
    (hrr : RecRound recur) (hp : PreservesSt recur)
    (hwa : ∀ kv ∈ a, WfJ kv.2) (hwb : ∀ kv ∈ b, WfJ kv.2) :
    ∀ (ks : List String) (ps : PredMap) (mains : List Entry) (ps2 : PredMap),
      StEq ps → ks.Nodup →
      ddMains recur a b path ks ps = .ok (mains, ps2) →
      (∀ e ∈ mains, ∃ k, k ∈ ks ∧ e.key = .s k ∧
        ((∃ dd, e = .patch (.s k) dd) ∨ ∃ v, e = .replace (.s k) v)) ∧
      (∀ k ∈ ks, ∃ av bv, lookupKv a k = some av ∧ lookupKv b k = some bv ∧
        (((∀ e ∈ mains, e.key ≠ .s k) ∧ av = bv)
          ∨ (∃ dd, .patch (.s k) dd ∈ mains ∧ patchVal av dd = some bv)
          ∨ (.replace (.s k) bv ∈ mains ∧ av ≠ bv))) := by
  intro ks
  induction ks with
  | nil =>
    intro ps mains ps2 hst hnd h
    simp only [ddMains] at h
    cases h
    exact ⟨fun e he => absurd he (List.not_mem_nil e),
      fun k hk => absurd hk (List.not_mem_nil k)⟩
  | cons k ks ih =>
    intro ps mains ps2 hst hnd h
    simp only [List.nodup_cons] at hnd
    simp only [ddMains] at h
    match hga : lookupKv a k, hgb : lookupKv b k with
    | some avalue, some bvalue =>
      rw [hga, hgb] at h
      simp only [] at h
      have hWa : WfJ avalue := hwa (k, avalue) (lookupKv_mem hga)
      have hWb : WfJ bvalue := hwb (k, bvalue) (lookupKv_mem hgb)
      by_cases hty : (typeSame avalue bvalue && !is_atomic avalue) = true
      · rw [if_pos hty] at h
        simp only [Bind.bind, Except.bind] at h
        match hrc : recur avalue bvalue (path ++ "/" ++ k) ps with
        | .error e2 => rw [hrc] at h; cases h
        | .ok (dd, psA) =>
          rw [hrc] at h
          simp only [] at h
          have hpv : patchVal avalue dd = some bvalue :=
            hrr avalue bvalue _ ps dd psA hWa hWb hst hrc
          have hstA : StEq psA := hp avalue bvalue _ ps dd psA hst hrc
          match hrec : ddMains recur a b path ks psA with
          | .error e2 => rw [hrec] at h; cases h
          | .ok (rest, psB) =>
            rw [hrec] at h
            simp only [] at h
            obtain ⟨ih1, ih2⟩ := ih psA rest psB hstA hnd.2 hrec
            have hrestk : ∀ e ∈ rest, e.key ≠ .s k := by
              intro e he hh
              obtain ⟨k2, hk2, hkey2, _⟩ := ih1 e he
              rw [hh] at hkey2
              cases hkey2
              exact hnd.1 hk2
            by_cases hemp : dd.isEmpty = true
            · rw [if_pos hemp] at h
              cases h
              have hdde : dd = [] := List.isEmpty_iff.mp hemp
              subst hdde
              rw [patchVal_nil] at hpv
              cases hpv
              refine ⟨?_, ?_⟩
              · intro e he
                obtain ⟨k2, hk2, hkey2, hsh⟩ := ih1 e he
                exact ⟨k2, List.mem_cons_of_mem _ hk2, hkey2, hsh⟩
              · intro k2 hk2
                rcases List.mem_cons.mp hk2 with rfl | hk3
                · exact ⟨avalue, avalue, hga, hgb, Or.inl ⟨hrestk, rfl⟩⟩
                · obtain ⟨av, bv, h1, h2, h3⟩ := ih2 k2 hk3
                  exact ⟨av, bv, h1, h2, h3⟩
            · rw [if_neg hemp] at h
              cases h
              refine ⟨?_, ?_⟩
              · intro e he
                rcases List.mem_cons.mp he with rfl | he1
                · exact ⟨k, List.mem_cons_self _ _, rfl, Or.inl ⟨dd, rfl⟩⟩
                · obtain ⟨k2, hk2, hkey2, hsh⟩ := ih1 e he1
                  exact ⟨k2, List.mem_cons_of_mem _ hk2, hkey2, hsh⟩
              · intro k2 hk2
                rcases List.mem_cons.mp hk2 with rfl | hk3
                · exact ⟨avalue, bvalue, hga, hgb,
                    Or.inr (Or.inl ⟨dd, List.mem_cons_self _ _, hpv⟩)⟩
                · obtain ⟨av, bv, h1, h2, h3⟩ := ih2 k2 hk3
                  refine ⟨av, bv, h1, h2, ?_⟩
                  rcases h3 with ⟨hno, heq⟩ | ⟨dd2, hm2, hp2⟩ | ⟨hm2, hne2⟩
                  · refine Or.inl ⟨?_, heq⟩
                    intro e he hh
                    rcases List.mem_cons.mp he with rfl | he1
                    · simp only [Entry.key, DKey.s.injEq] at hh
                      exact hnd.1 (hh ▸ hk3)
                    · exact hno e he1 hh
                  · exact Or.inr (Or.inl ⟨dd2, List.mem_cons_of_mem _ hm2, hp2⟩)
                  · exact Or.inr (Or.inr ⟨List.mem_cons_of_mem _ hm2, hne2⟩)
      · rw [if_neg hty] at h
        by_cases hpm : pmContains ps path = true
        · rw [if_pos hpm] at h
          cases h
        · rw [if_neg hpm] at h
          simp only [Bind.bind, Except.bind] at h
          match hrec : ddMains recur a b path ks ps with
          | .error e2 => rw [hrec] at h; cases h
          | .ok (rest, psB) =>
            rw [hrec] at h
            simp only [] at h
            obtain ⟨ih1, ih2⟩ := ih ps rest psB hst hnd.2 hrec
            have hrestk : ∀ e ∈ rest, e.key ≠ .s k := by
              intro e he hh
              obtain ⟨k2, hk2, hkey2, _⟩ := ih1 e he
              rw [hh] at hkey2
              cases hkey2
              exact hnd.1 hk2
            by_cases heqv : avalue = bvalue
            · rw [if_pos heqv] at h
              cases h
              refine ⟨?_, ?_⟩
              · intro e he
                obtain ⟨k2, hk2, hkey2, hsh⟩ := ih1 e he
                exact ⟨k2, List.mem_cons_of_mem _ hk2, hkey2, hsh⟩
              · intro k2 hk2
                rcases List.mem_cons.mp hk2 with rfl | hk3
                · exact ⟨avalue, bvalue, hga, hgb, Or.inl ⟨hrestk, heqv⟩⟩
                · obtain ⟨av, bv, h1, h2, h3⟩ := ih2 k2 hk3
                  exact ⟨av, bv, h1, h2, h3⟩
            · rw [if_neg heqv] at h
              cases h
              refine ⟨?_, ?_⟩
              · intro e he
                rcases List.mem_cons.mp he with rfl | he1
                · exact ⟨k, List.mem_cons_self _ _, rfl, Or.inr ⟨bvalue, rfl⟩⟩
                · obtain ⟨k2, hk2, hkey2, hsh⟩ := ih1 e he1
                  exact ⟨k2, List.mem_cons_of_mem _ hk2, hkey2, hsh⟩
              · intro k2 hk2
                rcases List.mem_cons.mp hk2 with rfl | hk3
                · exact ⟨avalue, bvalue, hga, hgb,
                    Or.inr (Or.inr ⟨List.mem_cons_self _ _, heqv⟩)⟩
                · obtain ⟨av, bv, h1, h2, h3⟩ := ih2 k2 hk3
                  refine ⟨av, bv, h1, h2, ?_⟩
                  rcases h3 with ⟨hno, heq⟩ | ⟨dd2, hm2, hp2⟩ | ⟨hm2, hne2⟩
                  · refine Or.inl ⟨?_, heq⟩
                    intro e he hh
                    rcases List.mem_cons.mp he with rfl | he1
                    · simp only [Entry.key, DKey.s.injEq] at hh
                      exact hnd.1 (hh ▸ hk3)
                    · exact hno e he1 hh
                  · exact Or.inr (Or.inl ⟨dd2, List.mem_cons_of_mem _ hm2, hp2⟩)
                  · exact Or.inr (Or.inr ⟨List.mem_cons_of_mem _ hm2, hne2⟩)
    | some _, none => rw [hga, hgb] at h; cases h
    | none, some _ => rw [hga, hgb] at h; cases h
    | none, none => rw [hga, hgb] at h; cases h

theorem setKeys_not_contains {a : List (String × JVal)} {k : String} :
    (setKeys a).contains k = false ↔ ¬ k ∈ a.map Prod.fst := by
  constructor
  · intro h hmem
    rw [setKeys_contains.mpr hmem] at h
    cases h
  · intro h
    cases hc : (setKeys a).contains k with
    | false => rfl
    | true => exact absurd (setKeys_contains.mp hc) h

theorem patchVal_obj_of_patchObj {a kvs2 b : List (String × JVal)} {D : List Entry}
    (hpObj : patchObj a D = some kvs2)
    (hsa : (a.map Prod.fst).Pairwise strLt) (hsb : (b.map Prod.fst).Pairwise strLt)
    (hnd2 : (kvs2.map Prod.fst).Nodup)
    (hqeq : ∀ q, lookupKv kvs2 q = lookupKv b q) :
    patchVal (.obj a) D = some (.obj b) := by
  cases D with
  | nil =>
    have hbase : patchObj a ([] : List Entry) = some a := by simp [patchObj]
    rw [hbase] at hpObj
    cases hpObj
    rw [patchVal_nil, sorted_kvs_ext hsa hsb hqeq]
  | cons e D2 =>
    have hstep : patchVal (.obj a) (e :: D2)
        = (patchObj a (e :: D2)).map (fun r => JVal.obj (sortKvs r)) := by
      simp [patchVal]
    rw [hstep, hpObj]
    simp only [Option.map_some']
    have hsort : sortKvs kvs2 = b :=
      sorted_kvs_ext (sortKvs_pairwise hnd2) hsb
        (fun q => by rw [lookup_sortKvs hnd2]; exact hqeq q)
    rw [hsort]

theorem diffDictsC_roundtrip {recur : DiffFn}
    (hrr : RecRound recur) (hp : PreservesSt recur)
    {a b : List (String × JVal)} {path : String} {ps : PredMap}
    {d : List Entry} {ps2 : PredMap}
    (hwa : WfJ (.obj a)) (hwb : WfJ (.obj b)) (hst : StEq ps)
    (h : diffDictsC recur a b path ps = .ok (d, ps2)) :
    patchVal (.obj a) d = some (.obj b) := by
  obtain ⟨hsa, hva⟩ : (a.map Prod.fst).Pairwise strLt ∧ ∀ kv ∈ a, WfJ kv.2 := by
    cases hwa with | obj h1 h2 => exact ⟨h1, h2⟩
  obtain ⟨hsb, hvb⟩ : (b.map Prod.fst).Pairwise strLt ∧ ∀ kv ∈ b, WfJ kv.2 := by
    cases hwb with | obj h1 h2 => exact ⟨h1, h2⟩
  have handup : (a.map Prod.fst).Nodup := pairwise_strLt_nodup hsa
  have hbndup : (b.map Prod.fst).Nodup := pairwise_strLt_nodup hsb
  unfold diffDictsC at h
  simp only [Bind.bind, Except.bind] at h
  match h1 : ddMains recur a b path
      (sortStr ((setKeys a).filter fun k => (setKeys b).contains k)) ps with
  | .error e => rw [h1] at h; cases h
  | .ok (mains, ps1) =>
    rw [h1] at h
    simp only [] at h
    match h2 : ddAdds b
        (sortStr ((setKeys b).filter fun k => !(setKeys a).contains k)) with
    | .error e => rw [h2] at h; cases h
    | .ok adds =>
      rw [h2] at h
      simp only [] at h
      unfold mappingValidated at h
      split at h
      case isFalse => cases h
      case isTrue hknd =>
      cases h
      have hkC : (sortStr ((setKeys a).filter fun k =>
          (setKeys b).contains k)).Nodup :=
        sortStr_nodup ((List.nodup_dedup _).filter _)
      obtain ⟨hm1, hm2⟩ := ddMains_spec hrr hp hva hvb _ ps mains _ hst hkC h1
      obtain ⟨ha1, ha2⟩ := ddAdds_spec _ adds h2
      have hmemC : ∀ {k : String},
          k ∈ sortStr ((setKeys a).filter fun k => (setKeys b).contains k) ↔
          (k ∈ a.map Prod.fst ∧ k ∈ b.map Prod.fst) := by
        intro k
        rw [mem_sortStr, List.mem_filter, setKeys_contains]
        exact and_congr mem_setKeys Iff.rfl
      have hmemBonly : ∀ {k : String},
          k ∈ sortStr ((setKeys b).filter fun k => !(setKeys a).contains k) ↔
          (k ∈ b.map Prod.fst ∧ ¬ k ∈ a.map Prod.fst) := by
        intro k
        rw [mem_sortStr, List.mem_filter, Bool.not_eq_true', setKeys_not_contains]
        exact and_congr mem_setKeys Iff.rfl
      have hremoves : ∀ {e : Entry},
          e ∈ (sortStr ((setKeys a).filter fun k =>
            !(setKeys b).contains k)).map (fun k => Entry.remove (.s k)) ↔
          ∃ k, e = .remove (.s k) ∧ k ∈ a.map Prod.fst ∧ ¬ k ∈ b.map Prod.fst := by
        intro e
        rw [List.mem_map]
        constructor
        · rintro ⟨k, hk, rfl⟩
          rw [mem_sortStr, List.mem_filter, Bool.not_eq_true',
            setKeys_not_contains] at hk
          exact ⟨k, rfl, mem_setKeys.mp hk.1, hk.2⟩
        · rintro ⟨k, rfl, hka, hkb⟩
          refine ⟨k, ?_, rfl⟩
          rw [mem_sortStr, List.mem_filter, Bool.not_eq_true', setKeys_not_contains]
          exact ⟨mem_setKeys.mpr hka, hkb⟩
      have hmemD : ∀ {e : Entry},
          e ∈ (((sortStr ((setKeys a).filter fun k =>
              !(setKeys b).contains k)).map fun k => Entry.remove (.s k))
            ++ mains ++ adds).insertionSort entryLe ↔
          (e ∈ (sortStr ((setKeys a).filter fun k =>
              !(setKeys b).contains k)).map (fun k => Entry.remove (.s k))
            ∨ e ∈ mains ∨ e ∈ adds) := by
        intro e
        rw [(List.perm_insertionSort entryLe _).mem_iff]
        simp [List.mem_append, or_assoc]
      have huniq := List.inj_on_of_nodup_map hknd
      have hAllD : ∀ e ∈ (((sortStr ((setKeys a).filter fun k =>
            !(setKeys b).contains k)).map fun k => Entry.remove (.s k))
          ++ mains ++ adds).insertionSort entryLe, Applies e a := by
        intro e he
        rcases hmemD.mp he with hrem | hmain | hadd
        · obtain ⟨k, rfl, hka, hkb⟩ := hremoves.mp hrem
          simp only [Applies]
          exact lookupKv_isSome_of_mem_keys hka
        · obtain ⟨k, hk, hkey, hsh⟩ := hm1 e hmain
          obtain ⟨av, bv, hga, hgb, hdisj⟩ := hm2 k hk
          rcases hsh with ⟨dd, rfl⟩ | ⟨v, rfl⟩
          · simp only [Applies]
            rcases hdisj with ⟨hno, _⟩ | ⟨dd0, hmem0, hpv0⟩ | ⟨hmem0, _⟩
            · exact absurd rfl (hno _ hmain)
            · have heq := huniq (hmemD.mpr (Or.inr (Or.inl hmain)))
                (hmemD.mpr (Or.inr (Or.inl hmem0))) rfl
              cases heq
              exact ⟨av, bv, hga, hpv0⟩
            · have heq := huniq (hmemD.mpr (Or.inr (Or.inl hmain)))
                (hmemD.mpr (Or.inr (Or.inl hmem0))) rfl
              cases heq
          · simp only [Applies]
            rw [hga]
            rfl
        · obtain ⟨k, v, rfl, hk, hv⟩ := ha1 e hadd
          simp only [Applies]
          exact lookupKv_eq_none_of_not_mem_keys (hmemBonly.mp hk).2
      obtain ⟨kvs2, hpObj, hnd2, huntouched, hentries⟩ :=
        patchObj_spec _ a handup hknd hAllD
      have hqeq : ∀ q, lookupKv kvs2 q = lookupKv b q := by
        intro q
        by_cases hqa : q ∈ a.map Prod.fst <;> by_cases hqb : q ∈ b.map Prod.fst
        · obtain ⟨av, bv, hga, hgb, hdisj⟩ := hm2 q (hmemC.mpr ⟨hqa, hqb⟩)
          rcases hdisj with ⟨hno, heq⟩ | ⟨dd, hmem, hpv⟩ | ⟨hmem, hne⟩
          · have hnoD : ∀ e ∈ (((sortStr ((setKeys a).filter fun k =>
                  !(setKeys b).contains k)).map fun k => Entry.remove (.s k))
                ++ mains ++ adds).insertionSort entryLe, e.key ≠ .s q := by
              intro e he hh
              rcases hmemD.mp he with hrem | hmain | hadd
              · obtain ⟨k, rfl, hka, hkb⟩ := hremoves.mp hrem
                simp only [Entry.key, DKey.s.injEq] at hh
                subst hh
                exact hkb hqb
              · exact hno e hmain hh
              · obtain ⟨k, v, rfl, hk, hv⟩ := ha1 e hadd
                simp only [Entry.key, DKey.s.injEq] at hh
                subst hh
                exact (hmemBonly.mp hk).2 hqa
            rw [huntouched q hnoD, hga, hgb, heq]
          · rw [hentries q _ (hmemD.mpr (Or.inr (Or.inl hmem))) rfl]
            simp only [effectE]
            rw [hga, hgb]
            simp only [Option.some_bind]
            exact hpv
          · rw [hentries q _ (hmemD.mpr (Or.inr (Or.inl hmem))) rfl]
            simp only [effectE]
            rw [hgb]
        · rw [hentries q _ (hmemD.mpr (Or.inl (hremoves.mpr ⟨q, rfl, hqa, hqb⟩))) rfl]
          simp only [effectE]
          rw [lookupKv_eq_none_of_not_mem_keys hqb]
        · obtain ⟨v, hv, hmem⟩ := ha2 q (hmemBonly.mpr ⟨hqb, hqa⟩)
          rw [hentries q _ (hmemD.mpr (Or.inr (Or.inr hmem))) rfl]
          simp only [effectE]
          rw [hv]
        · have hnoD : ∀ e ∈ (((sortStr ((setKeys a).filter fun k =>
                !(setKeys b).contains k)).map fun k => Entry.remove (.s k))
              ++ mains ++ adds).insertionSort entryLe, e.key ≠ .s q := by
            intro e he hh
            rcases hmemD.mp he with hrem | hmain | hadd
            · obtain ⟨k, rfl, hka, hkb⟩ := hremoves.mp hrem
              simp only [Entry.key, DKey.s.injEq] at hh
              subst hh
              exact hqa hka
            · obtain ⟨k, hk, hkey, _⟩ := hm1 e hmain
              rw [hh] at hkey
              cases hkey
              exact hqa (hmemC.mp hk).1
            · obtain ⟨k, v, rfl, hk, hv⟩ := ha1 e hadd
              simp only [Entry.key, DKey.s.injEq] at hh
              subst hh
              exact hqb (hmemBonly.mp hk).1
          rw [huntouched q hnoD, lookupKv_eq_none_of_not_mem_keys hqa,
            lookupKv_eq_none_of_not_mem_keys hqb]
      exact patchVal_obj_of_patchObj hpObj hsa hsb hnd2 hqeq

theorem patchVal_list_of_patchList {a b : List JVal} {D : List Entry}
    (h : patchList a D 0 = some b) : patchVal (.list a) D = some (.list b) := by
  cases D with
  | nil =>
    simp only [patchList] at h
    cases h
    rw [patchVal_nil]
  | cons e D2 =>
    have hstep : patchVal (.list a) (e :: D2)
        = (patchList a (e :: D2) 0).map JVal.list := by
      simp [patchVal]
    rw [hstep, h]
    rfl

theorem patchVal_str_of_patchStr {x y : String} {D : List Entry}
    (h : patchStr x.data D 0 = some y.data) :
    patchVal (.str x) D = some (.str y) := by
  cases D with
  | nil =>
    simp only [patchStr] at h
    have hxy : x = y := by
      cases x with
      | mk dx =>
        cases y with
        | mk dy =>
          cases h
          rfl
    subst hxy
    rw [patchVal_nil]
  | cons e D2 =>
    have hstep : patchVal (.str x) (e :: D2)
        = (patchStr x.data (e :: D2) 0).map (fun cs => JVal.str (String.mk cs)) := by
      simp [patchVal]
    rw [hstep, h]
    cases y with
    | mk dy => rfl

theorem diffListsC_roundtrip {recur : DiffFn}
    (hrr : RecRound recur) (hp : PreservesSt recur)
    {a b : List JVal} {path : String} {ps : PredMap} {d : List Entry}
    {ps2 : PredMap}
    (hwa : WfJ (.list a)) (hwb : WfJ (.list b)) (hst : StEq ps)
    (h : diffListsC recur a b path ps none = .ok (d, ps2)) :
    patchVal (.list a) d = some (.list b) := by
  have hxa : ∀ x ∈ a, WfJ x := by cases hwa with | list h1 => exact h1
  have hxb : ∀ x ∈ b, WfJ x := by cases hwb with | list h1 => exact h1
  unfold diffListsC at h
  obtain ⟨hc1, hc2⟩ := pmGet_of_StEq path hst
  obtain ⟨compares, ps1, hpm⟩ : ∃ cs ps1, pmGet ps path = (cs, ps1) := ⟨_, _, rfl⟩
  rw [hpm] at h hc1 hc2
  simp only [] at h hc1 hc2
  subst hc1
  rw [if_neg (by simp)] at h
  simp only [Bind.bind, Except.bind] at h
  match hq : seqDiffF defaultPred (seqFuel a b) a b 0 with
  | none => rw [hq] at h; cases h
  | some sd =>
    rw [hq] at h
    simp only [] at h
    match h2 : dlLoop recur a b (path ++ "/*") sd 0 0 ps1 with
    | .error e => rw [h2] at h; cases h
    | .ok (es2, psr) =>
      rw [h2] at h
      simp only [] at h
      have hscript : Script defaultPred 0 (a.drop 0) (b.drop 0) sd := by
        rw [List.drop_zero, List.drop_zero]
        exact seqDiffF_script _ a b 0 sd hq
      have hround := dlLoop_roundtrip hrr hp hxa hxb sd 0 0 ps1 es2 psr hc2
        (Nat.zero_le _) (Nat.zero_le _) hscript h2
      rw [List.drop_zero, List.drop_zero] at hround
      by_cases hord : seqKeysOrdered es2 = true
      · rw [if_pos hord] at h
        cases h
        exact patchVal_list_of_patchList hround
      · rw [if_neg hord] at h
        cases h

theorem diffF_roundtrip : ∀ f : Nat, RecRound (diffF f) := by
  intro f
  induction f with
  | zero =>
    intro v w path ps d ps2 _ _ _ h
    cases h
  | succ f ih =>
    intro v w path ps d ps2 hwv hww hst h
    match v, w with
    | .list xs, .list ys =>
      exact diffListsC_roundtrip ih (diffF_preserves f) hwv hww hst h
    | .obj xs, .obj ys =>
      exact diffDictsC_roundtrip ih (diffF_preserves f) hwv hww hst h
    | .str x, .str y =>
      simp only [diffF] at h
      match h2 : diff_strings x y with
      | .error e => rw [h2] at h; cases h
      | .ok d2 =>
        rw [h2] at h
        cases h
        unfold diff_strings at h2
        match hq : seqDiffF (fun c d => c == d) (seqFuel x.data y.data)
            x.data y.data 0 with
        | none => rw [hq] at h2; cases h2
        | some sd =>
          rw [hq] at h2
          simp only [] at h2
          cases h2
          have hscript : Script (fun c d => c == d) 0 x.data y.data sd :=
            seqDiffF_script _ x.data y.data 0 sd hq
          have henc : (fun e => match e with
              | SEnt.add i c => Entry.add (.i i) (.str (String.mk [c]))
              | SEnt.remove i => Entry.remove (.i i)) = encodeChar := by
            funext e
            cases e <;> rfl
          rw [henc]
          exact patchVal_str_of_patchStr (patchStr_script hscript)
    | .str _, .atom _ => cases h
    | .str _, .list _ => cases h
    | .str _, .obj _ => cases h
    | .atom _, _ => cases h
    | .list _, .str _ => cases h
    | .list _, .atom _ => cases h
    | .list _, .obj _ => cases h
    | .obj _, .str _ => cases h
    | .obj _, .atom _ => cases h
    | .obj _, .list _ => cases h

/-- C1: for every pair of well-formed documents `a` and `b` composed of
sequences, mappings, text and atoms, and any default-predicates registry
state, a successful `diff(a, b)` produces a diff whose replay against
`a` reconstructs `b` exactly (round-trip with the modelled patch/replay
helper). -/
theorem diff_roundtrip (f : Nat) (a b : JVal) (path : String) (ps : PredMap)
    (d : List Entry) (ps2 : PredMap) (hwa : WfJ a) (hwb : WfJ b)
    (hst : StEq ps) (h : diffF f a b path ps = .ok (d, ps2)) :
    patchVal a d = some b :=
  diffF_roundtrip f a b path ps d ps2 hwa hwb hst h

theorem diff_roundtrip_witness :
    patchVal (JVal.obj [("x", .atom 1), ("z", .list [.atom 1, .atom 2])])
        [.add (.s "w") (.str "hi"), .replace (.s "x") (.atom 2),
          .patch (.s "z") [.add (.i 1) (.atom 3)]]
      = some (JVal.obj [("w", .str "hi"), ("x", .atom 2),
          ("z", .list [.atom 1, .atom 3, .atom 2])]) :=
  diff_roundtrip 5
    (JVal.obj [("x", .atom 1), ("z", .list [.atom 1, .atom 2])])
    (JVal.obj [("w", .str "hi"), ("x", .atom 2),
      ("z", .list [.atom 1, .atom 3, .atom 2])])
    "" []
    [.add (.s "w") (.str "hi"), .replace (.s "x") (.atom 2),
      .patch (.s "z") [.add (.i 1) (.atom 3)]]
    [("/z", [defaultPred])]
    (by
      refine WfJ.obj ?_ ?_
      · simp only [List.map_cons, List.map_nil]
        exact List.Pairwise.cons
          (by
            intro a2 ha2
            rw [List.mem_singleton] at ha2
            subst ha2
            exact rfl)
          (List.Pairwise.cons (by intro a2 ha2; cases ha2) List.Pairwise.nil)
      · intro kv hkv
        rcases List.mem_cons.mp hkv with rfl | hkv
        · exact WfJ.atom 1
        rcases List.mem_cons.mp hkv with rfl | hkv
        · refine WfJ.list ?_
          intro x hx
          rcases List.mem_cons.mp hx with rfl | hx
          · exact WfJ.atom 1
          rcases List.mem_cons.mp hx with rfl | hx
          · exact WfJ.atom 2
          cases hx
        cases hkv)
    (by
      refine WfJ.obj ?_ ?_
      · simp only [List.map_cons, List.map_nil]
        refine List.Pairwise.cons ?_ (List.Pairwise.cons ?_
          (List.Pairwise.cons (by intro a2 ha2; cases ha2) List.Pairwise.nil))
        · intro a2 ha2
          rcases List.mem_cons.mp ha2 with rfl | ha2
          · exact rfl
          rw [List.mem_singleton] at ha2
          subst ha2
          exact rfl
        · intro a2 ha2
          rw [List.mem_singleton] at ha2
          subst ha2
          exact rfl
      · intro kv hkv
        rcases List.mem_cons.mp hkv with rfl | hkv
        · exact WfJ.str "hi"
        rcases List.mem_cons.mp hkv with rfl | hkv
        · exact WfJ.atom 2
        rcases List.mem_cons.mp hkv with rfl | hkv
        · refine WfJ.list ?_
          intro x hx
          rcases List.mem_cons.mp hx with rfl | hx
          · exact WfJ.atom 1
          rcases List.mem_cons.mp hx with rfl | hx
          · exact WfJ.atom 3
          rcases List.mem_cons.mp hx with rfl | hx
          · exact WfJ.atom 2
          cases hx
        cases hkv)
    (by intro p cs hmem; cases hmem)
    rfl

/-- Through the middle loop of `diff_dicts`: a traversed key whose `a`
value is atomic in the code's sense and differs from its `b` value
contributes a `Replace` entry (the `typeSame && not atomic` guard of
line 176 is false, so the equality-comparison branch of lines 182–187
runs). -/
theorem ddMains_atomic {recur : DiffFn} {a b : List (String × JVal)}
    {path : String} :
    ∀ (ks : List String) (ps : PredMap) (mains : List Entry) (ps2 : PredMap),
      ddMains recur a b path ks ps = .ok (mains, ps2) →
      ∀ k ∈ ks, ∀ av bv, lookupKv a k = some av → lookupKv b k = some bv →
        is_atomic av = true → av ≠ bv →
        Entry.replace (.s k) bv ∈ mains := by
  intro ks
  induction ks with
  | nil =>
    intro ps mains ps2 h k hk
    cases hk
  | cons k0 ks ih =>
    intro ps mains ps2 h k hk av bv hga hgb hat hne
    simp only [ddMains] at h
    rcases List.mem_cons.mp hk with rfl | hk2
    · rw [hga, hgb] at h
      simp only [] at h
      have hcond : ¬ ((typeSame av bv && !is_atomic av) = true) := by
        simp [hat]
      rw [if_neg hcond] at h
      by_cases hpm : pmContains ps path = true
      · rw [if_pos hpm] at h
        cases h
      · rw [if_neg hpm] at h
        simp only [Bind.bind, Except.bind] at h
        match hrec : ddMains recur a b path ks ps with
        | .error e => rw [hrec] at h; cases h
        | .ok (rest, psB) =>
          rw [hrec] at h
          simp only [] at h
          rw [if_neg hne] at h
          cases h
          exact List.mem_cons_self _ _
    · match hga0 : lookupKv a k0, hgb0 : lookupKv b k0 with
      | some av0, some bv0 =>
        rw [hga0, hgb0] at h
        simp only [] at h
        by_cases hty : (typeSame av0 bv0 && !is_atomic av0) = true
        · rw [if_pos hty] at h
          simp only [Bind.bind, Except.bind] at h
          match hrc : recur av0 bv0 (path ++ "/" ++ k0) ps with
          | .error e => rw [hrc] at h; cases h
          | .ok (dd, psA) =>
            rw [hrc] at h
            simp only [] at h
            match hrec : ddMains recur a b path ks psA with
            | .error e => rw [hrec] at h; cases h
            | .ok (rest, psB) =>
              rw [hrec] at h
              simp only [] at h
              have hmem := ih psA rest psB hrec k hk2 av bv hga hgb hat hne
              by_cases hemp : dd.isEmpty = true
              · rw [if_pos hemp] at h
                cases h
                exact hmem
              · rw [if_neg hemp] at h
                cases h
                exact List.mem_cons_of_mem _ hmem
        · rw [if_neg hty] at h
          by_cases hpm : pmContains ps path = true
          · rw [if_pos hpm] at h
            cases h
          · rw [if_neg hpm] at h
            simp only [Bind.bind, Except.bind] at h
            match hrec : ddMains recur a b path ks ps with
            | .error e => rw [hrec] at h; cases h
            | .ok (rest, psB) =>
              rw [hrec] at h
              simp only [] at h
              have hmem := ih ps rest psB hrec k hk2 av bv hga hgb hat hne
              by_cases heq : av0 = bv0
              · rw [if_pos heq] at h
                cases h
                exact hmem
              · rw [if_neg heq] at h
                cases h
                exact List.mem_cons_of_mem _ hmem
      | some _, none => rw [hga0, hgb0] at h; cases h
      | none, some _ => rw [hga0, hgb0] at h; cases h
      | none, none => rw [hga0, hgb0] at h; cases h

/-- C6 (amended): in dict-diff, for every key present in both mappings
whose value in the first mapping is atomic in the code's sense
(`is_atomic`: not a string, list or dict), the two values are compared
by equality, and an unequal pair yields a `Replace` entry at that key
in any produced diff; same-typed strings are instead recursed into via
the character-level text differ and an unequal pair yields a `Patch`
entry into the text. -/
theorem dict_atomic_pair_replaces (f : Nat) (a b : List (String × JVal))
    (path : String) (ps : PredMap) (d : List Entry) (ps2 : PredMap)
    (k : String) (av bv : JVal)
    (hga : lookupKv a k = some av) (hgb : lookupKv b k = some bv)
    (hat : is_atomic av = true) (hne : av ≠ bv)
    (h : diff_dicts f a b path ps = .ok (d, ps2)) :
    Entry.replace (.s k) bv ∈ d := by
  unfold diff_dicts diffDictsC at h
  simp only [Bind.bind, Except.bind] at h
  match h1 : ddMains (diffF f) a b path
      (sortStr ((setKeys a).filter fun k => (setKeys b).contains k)) ps with
  | .error e => rw [h1] at h; cases h
  | .ok (mains, ps1) =>
    rw [h1] at h
    simp only [] at h
    match h2 : ddAdds b
        (sortStr ((setKeys b).filter fun k => !(setKeys a).contains k)) with
    | .error e => rw [h2] at h; cases h
    | .ok adds =>
      rw [h2] at h
      simp only [] at h
      unfold mappingValidated at h
      split at h
      case isFalse => cases h
      case isTrue hknd =>
      cases h
      have hka : k ∈ a.map Prod.fst :=
        List.mem_map_of_mem Prod.fst (lookupKv_mem hga)
      have hkb : k ∈ b.map Prod.fst :=
        List.mem_map_of_mem Prod.fst (lookupKv_mem hgb)
      have hkC : k ∈ sortStr ((setKeys a).filter fun k =>
          (setKeys b).contains k) := by
        rw [mem_sortStr, List.mem_filter, setKeys_contains]
        exact ⟨mem_setKeys.mpr hka, hkb⟩
      have hmem := ddMains_atomic _ ps mains _ h1 k hkC av bv hga hgb hat hne
      rw [(List.perm_insertionSort entryLe _).mem_iff]
      exact List.mem_append.mpr (Or.inl (List.mem_append.mpr (Or.inr hmem)))

/-- C6 amended-claim witness: `{"k": 1}` against `{"k": 2}` succeeds
with exactly the `Replace` entry the theorem locates. -/
theorem dict_atomic_pair_replaces_witness :
    diff_dicts 3 [("k", .atom 1)] [("k", .atom 2)] "" []
        = .ok ([.replace (.s "k") (.atom 2)], []) ∧
      Entry.replace (.s "k") (.atom 2) ∈ [Entry.replace (.s "k") (.atom 2)] :=
  ⟨rfl, dict_atomic_pair_replaces 3 [("k", .atom 1)] [("k", .atom 2)] "" []
    [.replace (.s "k") (.atom 2)] [] "k" (.atom 1) (.atom 2)
    rfl rfl rfl (by decide) rfl⟩

end Nbdime
